import Mathlib

set_option maxHeartbeats 1000000
set_option maxRecDepth 100000

/-!
Verification development for the g8r reconciliation engine.

The definitions below are shallow embeddings of the Rust sources:
`src/utils/dag.rs`, `src/utils/duty.rs`, `src/utils/roster.rs`,
`src/kv/global_store.rs`, `src/kv/stack_context.rs`, `src/kv/mod.rs`,
`src/controller/mod.rs`, `src/stack/manager.rs`, `src/db/state.rs` and
`src/nickel/evaluator.rs`.  JSON values (serde_json::Value) are modelled by
the `Json` inductive; Rust HashMaps are modelled either as association
lists (`alGet`/`alSet`) or, where every key is initialized up front, as
total functions updated pointwise (`fupd`).  Fallible Rust functions
returning `anyhow::Result` are modelled with `Except String`.  Format
braces in error messages are replaced by the interpolated values; the
single-quote marks around interpolated names are elided from messages.
-/

/-- Model of serde_json::Value.  Numbers are modelled as integers (no claim
depends on number precision); objects are association lists of fields. -/
inductive Json where
  | null : Json
  | bool : Bool → Json
  | num : Int → Json
  | str : String → Json
  | arr : List Json → Json
  | obj : List (String × Json) → Json

/-- serde_json::Value::get on an object: first field with the given key. -/
def Json.get? : Json → String → Option Json
  | .obj fields, k => (fields.find? (fun p => p.1 == k)).map (fun p => p.2)
  | _, _ => none

/-- serde_json::Value::as_array. -/
def Json.as_array : Json → Option (List Json)
  | .arr xs => some xs
  | _ => none

/-- serde_json::Value::as_str. -/
def Json.as_str : Json → Option String
  | .str s => some s
  | _ => none

/-- The Duty entity (src/utils/duty.rs).  Timestamps are opaque to every
claim and are modelled as natural numbers. -/
structure Duty where
  id : Option Int
  name : String
  duty_type : String
  backend : String
  roster_selector : Json
  spec : Json
  status : Option Json
  metadata : Option Json
  created_at : Option Nat
  updated_at : Option Nat

/-- Extraction of the depends_on list performed by DependencyGraph::new
(src/utils/dag.rs lines 22-32): metadata, field depends_on, as array,
keep the string elements, default to the empty list. -/
def Duty.depends_on (d : Duty) : List String :=
  (((d.metadata.bind (fun m => m.get? "depends_on")).bind Json.as_array).map
    (fun arr => arr.filterMap Json.as_str)).getD []

/-- Duty::get_phase (src/utils/duty.rs lines 37-44). -/
def Duty.get_phase (d : Duty) : String :=
  ((d.status.bind (fun s => s.get? "phase")).bind Json.as_str).getD "pending"

/-- Duty::is_pending (src/utils/duty.rs lines 46-48). -/
def Duty.is_pending (d : Duty) : Bool :=
  d.get_phase == "pending"

/-- Association-list lookup, modelling HashMap::get. -/
def alGet {α : Type} (m : List (String × α)) (k : String) : Option α :=
  match m with
  | [] => none
  | (k2, v) :: rest => if k2 = k then some v else alGet rest k

/-- Association-list insert, modelling HashMap::insert (replaces the value
when the key is present, adds an entry otherwise). -/
def alSet {α : Type} (m : List (String × α)) (k : String) (v : α) : List (String × α) :=
  match m with
  | [] => [(k, v)]
  | (k2, v2) :: rest => if k2 = k then (k2, v) :: rest else (k2, v2) :: alSet rest k v

/-- DependencyGraph (src/utils/dag.rs lines 6-10): duties map and edges map. -/
structure DependencyGraph where
  duties : List (String × Duty)
  edges : List (String × List String)

/-- DependencyGraph::new (src/utils/dag.rs lines 13-39). -/
def DependencyGraph.new (ds : List Duty) : DependencyGraph :=
  ds.foldl
    (fun g d => { duties := alSet g.duties d.name d, edges := alSet g.edges d.name d.depends_on })
    ⟨[], []⟩

/-- Pointwise update of a function-typed map. -/
def fupd {α : Type} (f : String → α) (k : String) (v : α) : String → α :=
  fun x => if x = k then v else f x

/-- Inner loop of the in-degree / reverse-edge construction
(src/utils/dag.rs lines 50-62): for each dep of a node, check that the dep
is a duty, bump the in-degree of the node and record the node as a
dependent of the dep. -/
def addDeps (nodes : List String) (node : String) :
    List String → (String → Nat) → (String → List String) →
    Except String ((String → Nat) × (String → List String))
  | [], deg, rev => .ok (deg, rev)
  | dep :: rest, deg, rev =>
    if nodes.contains dep then
      addDeps nodes node rest (fupd deg node (deg node + 1)) (fupd rev dep (rev dep ++ [node]))
    else
      .error ("Duty " ++ node ++ " depends on " ++ dep ++ " which does not exist")

/-- Outer loop of the in-degree / reverse-edge construction over the edges
map (src/utils/dag.rs lines 50-62). -/
def addEdges (nodes : List String) :
    List (String × List String) → (String → Nat) → (String → List String) →
    Except String ((String → Nat) × (String → List String))
  | [], deg, rev => .ok (deg, rev)
  | (node, deps) :: rest, deg, rev =>
    match addDeps nodes node deps deg rev with
    | .error e => .error e
    | .ok dr => addEdges nodes rest dr.1 dr.2

/-- One decrement of the Kahn loop (src/utils/dag.rs lines 82-88): the
in-degree of a dependent is decremented and the dependent is queued when
the decrement reaches zero.  Rust decrements an unsigned counter and then
compares with zero; on Nat the reach-zero test is phrased as the value
before the decrement being one, which coincides whenever no underflow
occurs (underflow would be a panic in the Rust build). -/
def kahnStep (st : (String → Nat) × List String) (x : String) :
    (String → Nat) × List String :=
  (fupd st.1 x (st.1 x - 1), if st.1 x = 1 then st.2 ++ [x] else st.2)

/-- Popping one node of a batch (src/utils/dag.rs lines 78-90): every
dependent recorded in the reverse-edge map is decremented in order. -/
def popNode (rev : String → List String) (st : (String → Nat) × List String)
    (node : String) : (String → Nat) × List String :=
  (rev node).foldl kahnStep st

/-- One round of the Kahn while-loop (src/utils/dag.rs lines 73-96): the
whole current queue is popped as one batch; nodes whose in-degree reaches
zero form the next queue. -/
def runBatch (rev : String → List String) (deg : String → Nat)
    (batch : List String) : (String → Nat) × List String :=
  batch.foldl (popNode rev) (deg, [])

/-- The Kahn while-loop with explicit fuel (src/utils/dag.rs lines 73-96).
Each round with a nonempty queue moves at least one fresh node into the
batches, so node-count + 1 rounds always suffice; the fuel only makes the
recursion structural. -/
def kahnLoopF (rev : String → List String) :
    Nat → (String → Nat) → List String → List (List String) → List (List String)
  | 0, _, _, batches => batches
  | fuel + 1, deg, queue, batches =>
    if queue.isEmpty then batches
    else
      let st := runBatch rev deg queue
      kahnLoopF rev fuel st.1 st.2 (batches ++ [queue])

/-- DependencyGraph::topological_sort (src/utils/dag.rs lines 41-104):
build in-degrees and reverse edges (failing on an unresolved dep), seed the
queue with zero-in-degree nodes, run the batch-emitting Kahn loop, and fail
when the processed count differs from the duty count. -/
def DependencyGraph.topological_sort (g : DependencyGraph) :
    Except String (List (List String)) :=
  let nodes := g.duties.map (fun p => p.1)
  match addEdges nodes g.edges (fun _ => 0) (fun _ => []) with
  | .error e => .error e
  | .ok dr =>
    let queue0 := nodes.filter (fun n => dr.1 n == 0)
    let batches := kahnLoopF dr.2 (g.duties.length + 1) dr.1 queue0 []
    if (batches.map (fun b => b.length)).sum = g.duties.length then
      .ok batches
    else
      .error "Circular dependency detected in duty graph"

/-- DependencyGraph::get_execution_plan (src/utils/dag.rs lines 110-125):
each name batch is resolved into the corresponding duty batch. -/
def DependencyGraph.get_execution_plan (g : DependencyGraph) :
    Except String (List (List Duty)) :=
  match g.topological_sort with
  | .error e => .error e
  | .ok batches => .ok (batches.map (fun batch => batch.filterMap (fun n => alGet g.duties n)))

/-- The batch sequence iterated by Controller::destroy_duties_dag
(src/controller/mod.rs lines 284-322): the execution plan of the graph
built from the duties, reversed in place before iteration. -/
def destroy_batches (ds : List Duty) : Except String (List (List Duty)) :=
  match (DependencyGraph.new ds).get_execution_plan with
  | .error e => .error e
  | .ok plan => .ok plan.reverse

/-- The list of duty names of a duty set. -/
def dutyNames (ds : List Duty) : List String := ds.map Duty.name

/-- The depends_on list of the duty carrying a given name (first match). -/
def depsOf (ds : List Duty) (x : String) : List String :=
  ((ds.find? (fun d => d.name == x)).map Duty.depends_on).getD []

/-- Closed form of the reverse-edge map built by topological_sort: the
dependents of m, one occurrence per occurrence of m in a depends_on list,
in duty order. -/
def rev0 (ds : List Duty) (m : String) : List String :=
  ds.flatMap (fun d => List.replicate (d.depends_on.count m) d.name)

/-- Invariant of the Kahn while-loop: the popped and queued names are
distinct duty names; the in-degree of every name counts its dep
occurrences not yet popped; the queue holds exactly the unpopped names of
in-degree zero; and every popped name has all its deps in strictly earlier
batches. -/
def KahnInv (ds : List Duty) (deg : String → Nat) (queue : List String)
    (batches : List (List String)) : Prop :=
  (batches.flatten ++ queue).Nodup ∧
  (∀ x ∈ batches.flatten ++ queue, x ∈ dutyNames ds) ∧
  (∀ x, deg x = (depsOf ds x).countP (fun dep => !(batches.flatten.contains dep))) ∧
  (∀ x ∈ dutyNames ds, x ∉ batches.flatten → (deg x = 0 ↔ x ∈ queue)) ∧
  (∀ (i : Nat) (bi : List String), batches[i]? = some bi → ∀ x ∈ bi, ∀ dep ∈ depsOf ds x,
    ∃ (j : Nat) (bj : List String), j < i ∧ batches[j]? = some bj ∧ dep ∈ bj)

/-- The Roster entity (src/utils/roster.rs lines 4-22). -/
structure Roster where
  id : Option Int
  name : String
  roster_type : String
  traits : List String
  connection : Json
  auth : Json
  metadata : Option Json
  created_at : Option Nat
  updated_at : Option Nat

/-- RosterSelector (src/utils/roster.rs lines 60-64). -/
structure RosterSelector where
  traits : Option (List String)
  roster_type : Option String

/-- Roster::has_trait (src/utils/roster.rs lines 35-37). -/
def Roster.has_trait (r : Roster) (t : String) : Bool :=
  r.traits.any (fun x => x == t)

/-- Roster::has_all_traits (src/utils/roster.rs lines 39-41). -/
def Roster.has_all_traits (r : Roster) (required : List String) : Bool :=
  required.all (fun t => r.has_trait t)

/-- Roster::matches_selector (src/utils/roster.rs lines 43-57).  The two
early returns of the source are the two conjuncts. -/
def Roster.matches_selector (r : Roster) (sel : RosterSelector) : Bool :=
  (match sel.traits with
    | some required => r.has_all_traits required
    | none => true)
  &&
  (match sel.roster_type with
    | some t => r.roster_type == t
    | none => true)

/-- StateManager::find_rosters_by_traits (src/db/state.rs lines 76-86):
the SQL jsonb containment `traits @> $1` keeps the rosters whose trait
array contains every requested trait.  The store is modelled as the list
of persisted rosters. -/
def find_rosters_by_traits (rosters : List Roster) (traits : List String) : List Roster :=
  rosters.filter (fun r => traits.all (fun t => r.has_trait t))

/-- Controller::match_roster (src/controller/mod.rs lines 35-56) after the
selector has been deserialized: query by traits when present (otherwise
list all rosters), retain by roster_type when present, and take the first
candidate, failing when none remains. -/
def match_roster (rosters : List Roster) (sel : RosterSelector) (duty_name : String) :
    Except String Roster :=
  let query :=
    match sel.traits with
    | some traits => find_rosters_by_traits rosters traits
    | none => rosters
  let query2 :=
    match sel.roster_type with
    | some t => query.filter (fun r => r.roster_type == t)
    | none => query
  match query2 with
  | [] => .error ("No matching roster found for duty " ++ duty_name)
  | r :: _ => .ok r

/-- VariableType (src/kv/mod.rs lines 14-21). -/
inductive VariableType where
  | Const : VariableType
  | Var : VariableType
  | Global : VariableType
deriving DecidableEq

/-- Variable (src/kv/mod.rs lines 25-32).  Timestamps are modelled as
naturals supplied by the caller in place of chrono::Utc::now(). -/
structure Variable where
  key : String
  value : Json
  var_type : VariableType
  description : Option String
  created_at : Nat
  updated_at : Nat

/-- Variable::new_const (src/kv/mod.rs lines 35-45). -/
def Variable.new_const (key : String) (value : Json) (description : Option String)
    (now : Nat) : Variable :=
  { key := key, value := value, var_type := .Const, description := description,
    created_at := now, updated_at := now }

/-- Variable::new_var (src/kv/mod.rs lines 47-57). -/
def Variable.new_var (key : String) (value : Json) (description : Option String)
    (now : Nat) : Variable :=
  { key := key, value := value, var_type := .Var, description := description,
    created_at := now, updated_at := now }

/-- Variable::new_global (src/kv/mod.rs lines 59-69). -/
def Variable.new_global (key : String) (value : Json) (description : Option String)
    (now : Nat) : Variable :=
  { key := key, value := value, var_type := .Global, description := description,
    created_at := now, updated_at := now }

/-- GlobalKvStore::set in in-memory mode (src/kv/global_store.rs lines
125-151): Var is rejected before the store is touched; Global and Const
are inserted.  The pair returns the Result and the store after the call. -/
def GlobalKvStore.set (store : List (String × Variable)) (v : Variable) :
    Except String Unit × List (String × Variable) :=
  match v.var_type with
  | .Var => (.error ("Cannot store stack variable " ++ v.key ++ " in global store"), store)
  | .Global => (.ok (), alSet store v.key v)
  | .Const => (.ok (), alSet store v.key v)

/-- GlobalKvStore::get in in-memory mode (src/kv/global_store.rs lines
110-123). -/
def GlobalKvStore.get (store : List (String × Variable)) (key : String) : Option Variable :=
  alGet store key

/-- GlobalKvStore::set_json (src/kv/global_store.rs lines 53-56). -/
def GlobalKvStore.set_json (store : List (String × Variable)) (key : String) (value : Json)
    (description : Option String) (now : Nat) :
    Except String Unit × List (String × Variable) :=
  GlobalKvStore.set store (Variable.new_global key value description now)

/-- The loop over the fields of the object inside GlobalKvStore::set_bulk
(src/kv/global_store.rs lines 61-71): each top-level field is stored under
the dotted key, errors abort the loop. -/
def set_bulk_fields (store : List (String × Variable)) :
    List (String × Json) → Option String → Nat →
    Except String Unit × List (String × Variable)
  | [], _, _ => (.ok (), store)
  | (key, value) :: rest, keyPre, now =>
    let full_key :=
      match keyPre with
      | some p => p ++ "." ++ key
      | none => key
    match GlobalKvStore.set_json store full_key value none now with
    | (.error e, st) => (.error e, st)
    | (.ok _, st) => set_bulk_fields st rest keyPre now

/-- GlobalKvStore::set_bulk (src/kv/global_store.rs lines 59-81). -/
def GlobalKvStore.set_bulk (store : List (String × Variable)) (vars : Json)
    (keyPre : Option String) (now : Nat) :
    Except String Unit × List (String × Variable) :=
  match vars with
  | .obj fields => set_bulk_fields store fields keyPre now
  | _ =>
    match keyPre with
    | some p => GlobalKvStore.set_json store p vars none now
    | none => (.error "Cannot set non-object value without key", store)

/-- StackContext::set (src/kv/stack_context.rs lines 143-168): Global and
Const are rejected before the store is touched; Var is inserted. -/
def StackContext.set (store : List (String × Variable)) (v : Variable) :
    Except String Unit × List (String × Variable) :=
  match v.var_type with
  | .Global => (.error ("Cannot store global variable " ++ v.key ++ " in stack context"), store)
  | .Const => (.error ("Cannot store constant " ++ v.key ++ " in stack context - constants are read-only"), store)
  | .Var => (.ok (), alSet store v.key v)

/-- The Stack entity (src/db/models.rs lines 18-36).  Timestamps are
modelled as naturals. -/
structure Stack where
  id : Option Int
  name : String
  source_type : String
  source_config : Json
  config_path : String
  reconcile_interval : Option Int
  last_sync_at : Option Nat
  last_sync_version : Option String
  status : String
  metadata : Option Json
  created_at : Option Nat
  updated_at : Option Nat

/-- StateManager::update_stack_sync (src/db/state.rs lines 366-381): the
UPDATE sets last_sync_at, last_sync_version and status on every row with
the given name.  The stacks table is modelled as a list of rows. -/
def update_stack_sync (rows : List Stack) (name : String) (version : String)
    (status : String) (now : Nat) : List Stack :=
  rows.map (fun s =>
    if s.name == name then
      { s with last_sync_at := some now, last_sync_version := some version, status := status }
    else s)

/-- StateManager::update_stack_status (src/db/state.rs lines 383-393). -/
def update_stack_status (rows : List Stack) (name : String) (status : String) :
    List Stack :=
  rows.map (fun s => if s.name == name then { s with status := status } else s)

/-- StateManager::get_stack_by_name (first row with the name). -/
def get_stack_by_name (rows : List Stack) (name : String) : Option Stack :=
  rows.find? (fun s => s.name == name)

/-- Abstract outcome of the stack source used by reconcile_once: the
results of fetch(), get_version() and get_config_path() for the current
cycle (src/stack/source.rs interface). -/
structure SourceModel where
  fetchResult : Except String Unit
  versionResult : Except String String
  configPathResult : Except String String

/-- StackManager::reconcile_once (src/stack/manager.rs lines 187-258).
The controller call reconcile_from_nickel_with_variables is abstracted as
the parameter reconcileResult; the third component of the result records
whether that call was reached.  Error contexts added by .context are not
re-modelled (plain propagation); tracing spans carry no state and are
dropped. -/
def reconcile_once (db : List Stack) (stack : Stack) (source : SourceModel)
    (reconcileResult : Except String Unit) (now : Nat) :
    Except String Unit × List Stack × Bool :=
  match source.fetchResult with
  | .error e => (.error e, db, false)
  | .ok _ =>
    match source.versionResult with
    | .error e => (.error e, db, false)
    | .ok current =>
      let last := stack.last_sync_version.getD ""
      if current == last then (.ok (), db, false)
      else
        let db1 := update_stack_status db stack.name "syncing"
        match source.configPathResult with
        | .error e => (.error e, db1, false)
        | .ok _ =>
          match reconcileResult with
          | .ok _ => (.ok (), update_stack_sync db1 stack.name current "synced" now, true)
          | .error e => (.error e, db1, true)

/-- Instruction (src/utils/instruction.rs lines 3-10). -/
structure Instruction where
  token : String
  instruction_type : String
  args : List String
  target_path : String
  expected_type : Option String

/-- InstructionContext (src/utils/instruction.rs lines 12-16). -/
structure InstructionContext where
  instructions : List Instruction
  next_token_id : Nat

/-- InstructionContext::new (src/utils/instruction.rs lines 19-24). -/
def InstructionContext.new : InstructionContext :=
  { instructions := [], next_token_id := 1 }

/-- InstructionContext::add_instruction (src/utils/instruction.rs lines
26-46). -/
def InstructionContext.add_instruction (ic : InstructionContext) (instruction_type : String)
    (args : List String) (target_path : String) (expected_type : Option String) :
    String × InstructionContext :=
  let token := "__INSTRUCTION_" ++ toString ic.next_token_id ++ "__"
  (token,
    { instructions := ic.instructions ++
        [{ token := token, instruction_type := instruction_type, args := args,
           target_path := target_path, expected_type := expected_type }],
      next_token_id := ic.next_token_id + 1 })

/-- VariableContext (src/kv/mod.rs lines 106-110) restricted to in-memory
stores: the stack store, the global store, and the constants map. -/
structure VariableContext where
  stack_context : List (String × Variable)
  global_store : List (String × Variable)
  constants : List (String × Json)

/-- VariableContext::resolve (src/kv/mod.rs lines 127-144): constants,
then the stack store, then the global store. -/
def VariableContext.resolve (ctx : VariableContext) (key : String) : Option Json :=
  match alGet ctx.constants key with
  | some v => some v
  | none =>
    match alGet ctx.stack_context key with
    | some var => some var.value
    | none => (alGet ctx.global_store key).map (fun var => var.value)

/-- Escaping of one character by serde_json::to_string (quote and
backslash; no claim exercises control characters). -/
def escapeJsonChar (c : Char) : String :=
  if c = '"' then "\\\"" else if c = '\\' then "\\\\" else String.singleton c

/-- String body escaping of serde_json::to_string. -/
def escapeJson (s : String) : String :=
  String.join (s.toList.map escapeJsonChar)

mutual

/-- serde_json::to_string: compact JSON serialization. -/
def Json.render : Json → String
  | .null => "null"
  | .bool b => if b then "true" else "false"
  | .num n => toString n
  | .str s => "\"" ++ escapeJson s ++ "\""
  | .arr xs => "[" ++ Json.renderArr xs ++ "]"
  | .obj fields => "\x7b" ++ Json.renderObj fields ++ "\x7d"

/-- Comma-joined serialization of array items. -/
def Json.renderArr : List Json → String
  | [] => ""
  | [x] => Json.render x
  | x :: y :: rest => Json.render x ++ "," ++ Json.renderArr (y :: rest)

/-- Comma-joined serialization of object fields. -/
def Json.renderObj : List (String × Json) → String
  | [] => ""
  | [f] => "\"" ++ escapeJson f.1 ++ "\":" ++ Json.render f.2
  | f :: g :: rest => "\"" ++ escapeJson f.1 ++ "\":" ++ Json.render f.2 ++ "," ++ Json.renderObj (g :: rest)

end

/-- The shapes of the regex patterns of process_g8r_variable_functions
(src/nickel/evaluator.rs lines 417-428): a name followed by one quoted
argument, by two quoted arguments, or by one quoted argument and one raw
non-parenthesis argument (the g8r_set pattern). -/
inductive GShape where
  | quoted1 : String → GShape
  | quoted2 : String → GShape
  | quotedRaw : String → GShape

/-- Whitespace class of the regex escape backslash-s (ASCII). -/
def isWsChar (c : Char) : Bool :=
  c = ' ' || c = '\t' || c = '\n' || c = '\r' || c = '\x0b' || c = '\x0c'

/-- Consume leading whitespace (the regex fragment backslash-s star). -/
def skipWs : List Char → List Char
  | [] => []
  | c :: cs => if isWsChar c then skipWs cs else c :: cs

/-- Consume an exact literal prefix. -/
def stripLit : List Char → List Char → Option (List Char)
  | [], cs => some cs
  | _ :: _, [] => none
  | l :: ls, c :: cs => if c = l then stripLit ls cs else none

/-- Consume a quoted capture: a double quote, one or more non-quote
characters, a double quote (the regex fragment for a quoted argument). -/
def takeQuoted (cs : List Char) : Option (String × List Char) :=
  match cs with
  | '"' :: rest =>
    let content := rest.takeWhile (fun c => c ≠ '"')
    if content.isEmpty then none
    else
      match rest.dropWhile (fun c => c ≠ '"') with
      | '"' :: rest2 => some (String.mk content, rest2)
      | _ => none
  | _ => none

/-- Consume the raw second argument of the g8r_set pattern: one or more
non-close-parenthesis characters followed by the close parenthesis. -/
def takeNonParen (cs : List Char) : Option (String × List Char) :=
  let content := cs.takeWhile (fun c => c ≠ ')')
  if content.isEmpty then none
  else
    match cs.dropWhile (fun c => c ≠ ')') with
    | ')' :: rest2 => some (String.mk content, rest2)
    | _ => none

/-- Match one pattern occurrence at the head of the input, returning the
captured arguments and the rest of the input after the match.  This is the
leftmost-match step for one of the regexes of
process_g8r_variable_functions. -/
def matchShape : GShape → List Char → Option (List String × List Char)
  | .quoted1 name, cs =>
    match stripLit name.toList cs with
    | none => none
    | some cs1 =>
      match skipWs cs1 with
      | '(' :: cs3 =>
        match takeQuoted (skipWs cs3) with
        | none => none
        | some (a, cs5) =>
          match skipWs cs5 with
          | ')' :: cs7 => some ([a], cs7)
          | _ => none
      | _ => none
  | .quoted2 name, cs =>
    match stripLit name.toList cs with
    | none => none
    | some cs1 =>
      match skipWs cs1 with
      | '(' :: cs3 =>
        match takeQuoted (skipWs cs3) with
        | none => none
        | some (a, cs5) =>
          match skipWs cs5 with
          | ',' :: cs6 =>
            match takeQuoted (skipWs cs6) with
            | none => none
            | some (b, cs8) =>
              match skipWs cs8 with
              | ')' :: cs9 => some ([a, b], cs9)
              | _ => none
          | _ => none
      | _ => none
  | .quotedRaw name, cs =>
    match stripLit name.toList cs with
    | none => none
    | some cs1 =>
      match skipWs cs1 with
      | '(' :: cs3 =>
        match takeQuoted (skipWs cs3) with
        | none => none
        | some (a, cs5) =>
          match skipWs cs5 with
          | ',' :: cs6 =>
            match takeNonParen (skipWs cs6) with
            | none => none
            | some (b, cs8) => some ([a, b], cs8)
          | _ => none
      | _ => none

/-- The per-match replacement of process_g8r_variable_functions
(src/nickel/evaluator.rs lines 442-492): g8r_get, g8r_global and g8r_const
substitute the serialized resolved value, g8r_set is rejected, and every
other function type (g8r_output, g8r_secret, g8r_env) is replaced by a
quoted instruction token recorded in the instruction context. -/
def replacement_for (ftype : String) (args : List String) (ctx : VariableContext)
    (ic : InstructionContext) : Except String (String × InstructionContext) :=
  match ftype with
  | "g8r_get" =>
    let key := args.headD ""
    match ctx.resolve key with
    | some v => .ok (v.render, ic)
    | none => .error ("Variable " ++ key ++ " not found in any context")
  | "g8r_global" =>
    let key := args.headD ""
    match alGet ctx.global_store key with
    | some var => .ok (var.value.render, ic)
    | none => .error ("Global variable " ++ key ++ " not found")
  | "g8r_const" =>
    let key := args.headD ""
    match alGet ctx.constants key with
    | some v => .ok (v.render, ic)
    | none => .error ("Constant " ++ key ++ " not found")
  | "g8r_set" =>
    .error "g8r_set() cannot be used in configuration - use runtime variable setting instead"
  | _ =>
    let ti := ic.add_instruction ftype args "" none
    .ok ("\"" ++ ti.1 ++ "\"", ti.2)

/-- One pass of process_g8r_variable_functions for one pattern: scan left
to right, replace every non-overlapping leftmost match (the source
collects the matches and substitutes them back to front, which yields the
same string).  The fuel is at least the input length plus one, and every
step consumes at least one character, so it never runs out. -/
def processPatternF (ftype : String) (sh : GShape) (ctx : VariableContext) :
    Nat → List Char → InstructionContext → Except String (List Char × InstructionContext)
  | 0, cs, ic => .ok (cs, ic)
  | fuel + 1, cs, ic =>
    match cs with
    | [] => .ok ([], ic)
    | c :: rest =>
      match matchShape sh (c :: rest) with
      | some ar =>
        match replacement_for ftype ar.1 ctx ic with
        | .error e => .error e
        | .ok ri =>
          match processPatternF ftype sh ctx fuel ar.2 ri.2 with
          | .error e => .error e
          | .ok oi => .ok (ri.1.toList ++ oi.1, oi.2)
      | none =>
        match processPatternF ftype sh ctx fuel rest ic with
        | .error e => .error e
        | .ok oi => .ok (c :: oi.1, oi.2)

/-- The ordered pattern list of process_g8r_variable_functions
(src/nickel/evaluator.rs lines 417-428). -/
def g8rVariablePatterns : List (GShape × String) :=
  [(.quoted2 "g8r_output", "g8r_output"),
   (.quoted1 "g8r_secret", "g8r_secret"),
   (.quoted1 "g8r_env", "g8r_env"),
   (.quoted1 "g8r_get", "g8r_get"),
   (.quotedRaw "g8r_set", "g8r_set"),
   (.quoted1 "g8r_global", "g8r_global"),
   (.quoted1 "g8r_const", "g8r_const")]

/-- Sequential application of the pattern passes (the outer for-loop of
process_g8r_variable_functions). -/
def processPatterns (ctx : VariableContext) :
    List (GShape × String) → List Char → InstructionContext →
    Except String (List Char × InstructionContext)
  | [], cs, ic => .ok (cs, ic)
  | p :: rest, cs, ic =>
    match processPatternF p.2 p.1 ctx (cs.length + 1) cs ic with
    | .error e => .error e
    | .ok ri => processPatterns ctx rest ri.1 ri.2

/-- NickelEvaluator::process_g8r_variable_functions
(src/nickel/evaluator.rs lines 412-505). -/
def process_g8r_variable_functions (ctx : VariableContext) (source : String) :
    Except String (String × InstructionContext) :=
  match processPatterns ctx g8rVariablePatterns source.toList InstructionContext.new with
  | .error e => .error e
  | .ok ri => .ok (String.mk ri.1, ri.2)

/-- A duty with a name and depends_on metadata, shaped like the fixtures
of the dag.rs unit tests. -/
def testDuty (n : String) (deps : List String) : Duty :=
  { id := none, name := n, duty_type := "Test", backend := "test",
    roster_selector := .obj [("traits", .arr [.str "test"])], spec := .obj [],
    status := none,
    metadata := if deps.isEmpty then none
      else some (.obj [("depends_on", .arr (deps.map Json.str))]),
    created_at := none, updated_at := none }

/-- Scenario S1 of the spec: a, b and c depend on a, d depends on b and c. -/
def s1Duties : List Duty :=
  [testDuty "a" [], testDuty "b" ["a"], testDuty "c" ["a"], testDuty "d" ["b", "c"]]

/-- A topological ranking of scenario S1. -/
def rankS1 : String → Nat :=
  fun n => if n = "a" then 0 else if n = "d" then 2 else 1

/-- Scenario S2 of the spec: a two-cycle. -/
def s2Duties : List Duty :=
  [testDuty "a" ["b"], testDuty "b" ["a"]]

/-- A duty referencing a dependency outside the set. -/
def s3Duties : List Duty :=
  [testDuty "a" ["zz"]]

/-- The source of scenario S5 of the spec. -/
def srcS5 : String := "x = g8r_output(\"b\",\"k\")\ny = g8r_env(\"HOME\")"

/-- An empty variable context. -/
def emptyVarCtx : VariableContext :=
  { stack_context := [], global_store := [], constants := [] }

/-- The nested object of the C5 scenario. -/
def c5Input : Json := .obj [("a", .obj [("b", .str "v")])]

/-- Roster r1 of scenario S4 of the spec. -/
def r1Roster : Roster :=
  { id := none, name := "r1", roster_type := "aws", traits := ["aws"],
    connection := .obj [], auth := .obj [], metadata := none,
    created_at := none, updated_at := none }

/-- Roster r2 of scenario S4 of the spec. -/
def r2Roster : Roster :=
  { id := none, name := "r2", roster_type := "gcp", traits := ["gcp"],
    connection := .obj [], auth := .obj [], metadata := none,
    created_at := none, updated_at := none }

/-- A stack row with a recorded sync cursor. -/
def c9Stack : Stack :=
  { id := some 1, name := "web", source_type := "git", source_config := .obj [],
    config_path := "main.ncl", reconcile_interval := some 60,
    last_sync_at := none, last_sync_version := some "v1", status := "synced",
    metadata := none, created_at := none, updated_at := none }

/-- A source whose reported version matches the stack cursor. -/
def c9SourceSame : SourceModel :=
  { fetchResult := .ok (), versionResult := .ok "v1", configPathResult := .ok "/w/main.ncl" }

/-- A source whose reported version differs from the stack cursor. -/
def c9SourceNew : SourceModel :=
  { fetchResult := .ok (), versionResult := .ok "v2", configPathResult := .ok "/w/main.ncl" }

/-- A duty that has never been applied (no status). -/
def pendingDuty : Duty := testDuty "fresh" []

/-! ### General lemmas about the association-list and map helpers -/

theorem alGet_alSet {α : Type} (m : List (String × α)) (k k2 : String) (v : α) :
    alGet (alSet m k v) k2 = if k = k2 then some v else alGet m k2 := by
  induction m with
  | nil =>
    by_cases h : k = k2
    · simp [alSet, alGet, h]
    · simp [alSet, alGet, h]
  | cons p rest ih =>
    obtain ⟨k3, v3⟩ := p
    by_cases h3 : k3 = k
    · subst h3
      by_cases h : k3 = k2
      · simp [alSet, alGet, h]
      · simp [alSet, alGet, h]
    · by_cases h : k3 = k2
      · subst h
        have : ¬k = k3 := fun hc => h3 hc.symm
        simp [alSet, alGet, h3, this]
      · simp [alSet, alGet, h3, h, ih]

theorem alSet_fresh {α : Type} (m : List (String × α)) (k : String) (v : α)
    (h : k ∉ m.map Prod.fst) : alSet m k v = m ++ [(k, v)] := by
  induction m with
  | nil => simp [alSet]
  | cons p rest ih =>
    simp only [List.map_cons, List.mem_cons] at h
    push_neg at h
    have hne : p.1 ≠ k := fun hc => h.1 hc.symm
    obtain ⟨k3, v3⟩ := p
    simp only [alSet, if_neg hne, List.cons_append, List.cons.injEq, true_and]
    exact ih h.2

/-! ### C10: default phase -/

/-- C10: for every duty whose status is absent, or whose status object has
no phase field, or whose phase field is not a string, get_phase returns
pending, and is_pending is true for it. -/
theorem get_phase_defaults_pending (d : Duty)
    (h : d.status = none ∨
         (∃ s, d.status = some s ∧ s.get? "phase" = none) ∨
         (∃ s p, d.status = some s ∧ s.get? "phase" = some p ∧ p.as_str = none)) :
    d.get_phase = "pending" ∧ d.is_pending = true := by
  have hcore : d.get_phase = "pending" := by
    rcases h with h1 | ⟨s, hs, hp⟩ | ⟨s, p, hs, hp, hstr⟩
    · simp [Duty.get_phase, h1]
    · simp [Duty.get_phase, hs, hp]
    · simp [Duty.get_phase, hs, hp, hstr]
  exact ⟨hcore, by simp [Duty.is_pending, hcore]⟩

/-- Witness for C10 at a concrete never-applied duty. -/
theorem get_phase_defaults_pending_witness :
    (pendingDuty.status = none ∨
       (∃ s, pendingDuty.status = some s ∧ s.get? "phase" = none) ∨
       (∃ s p, pendingDuty.status = some s ∧ s.get? "phase" = some p ∧ p.as_str = none)) ∧
    (pendingDuty.get_phase = "pending" ∧ pendingDuty.is_pending = true) :=
  ⟨Or.inl rfl, get_phase_defaults_pending pendingDuty (Or.inl rfl)⟩

/-! ### C6: variable-type guards of the two stores -/

/-- C6: the global store rejects writes of type Var and leaves its
contents unchanged; the stack store rejects writes of type Global or Const
and leaves its contents unchanged. -/
theorem kv_type_guards :
    (∀ (store : List (String × Variable)) (v : Variable), v.var_type = .Var →
      GlobalKvStore.set store v =
        (.error ("Cannot store stack variable " ++ v.key ++ " in global store"), store)) ∧
    (∀ (store : List (String × Variable)) (v : Variable),
      v.var_type = .Global ∨ v.var_type = .Const →
      ∃ msg, StackContext.set store v = (.error msg, store)) := by
  constructor
  · intro store v hv
    simp [GlobalKvStore.set, hv]
  · intro store v hv
    rcases hv with hv | hv
    · exact ⟨"Cannot store global variable " ++ v.key ++ " in stack context",
        by simp [StackContext.set, hv]⟩
    · exact ⟨"Cannot store constant " ++ v.key ++ " in stack context - constants are read-only",
        by simp [StackContext.set, hv]⟩

/-- Witness for C6 at concrete variables and an empty store. -/
theorem kv_type_guards_witness :
    ((Variable.new_var "k" .null none 0).var_type = .Var ∧
      GlobalKvStore.set [] (Variable.new_var "k" .null none 0) =
        (.error ("Cannot store stack variable " ++ (Variable.new_var "k" .null none 0).key ++
          " in global store"), [])) ∧
    ((Variable.new_const "k" .null none 0).var_type = .Const ∧
      ∃ msg, StackContext.set [] (Variable.new_const "k" .null none 0) = (.error msg, [])) :=
  ⟨⟨rfl, kv_type_guards.1 [] _ rfl⟩, ⟨rfl, kv_type_guards.2 [] _ (Or.inr rfl)⟩⟩

/-! ### C5: set_bulk is not recursive -/

/-- C5 (refutation of the claimed recursive flattening): at the nested
input of the claim, set_bulk succeeds but stores the whole nested object
under the key p.a, so get of p.a.b finds nothing, while the claim and the
unit test test_bulk_set_from_json of global_store.rs expect the leaf under
p.a.b. -/
theorem set_bulk_shallow_at_nested_input :
    (GlobalKvStore.set_bulk [] c5Input (some "p") 0).1 = .ok () ∧
    GlobalKvStore.get (GlobalKvStore.set_bulk [] c5Input (some "p") 0).2 "p.a.b" = none ∧
    (GlobalKvStore.get (GlobalKvStore.set_bulk [] c5Input (some "p") 0).2 "p.a").map
      (fun v => v.value) = some (.obj [("b", .str "v")]) :=
  ⟨rfl, rfl, rfl⟩

/-! ### C4: instruction-token rewriting of the S5 source -/

/-- C4 (counterexample to the claim as stated): on the S5 source the
instruction context holds two entries, not one, because g8r_env is not
resolved pre-evaluation. -/
theorem g8r_env_token_counterexample :
    (process_g8r_variable_functions emptyVarCtx srcS5).map
      (fun r => r.2.instructions.length) = .ok 2 ∧ (2 : Nat) ≠ 1 :=
  ⟨rfl, by decide⟩

/-- C4 (amended): on the S5 source, g8r_output is replaced by the quoted
token number one with args b and k, and g8r_env is also replaced by a
quoted instruction token (number two, args HOME) rather than being
resolved pre-evaluation; the instruction context holds exactly these two
entries, numbered in pattern order. -/
theorem g8r_rewriting_s5 :
    process_g8r_variable_functions emptyVarCtx srcS5 =
      .ok ("x = \"__INSTRUCTION_1__\"\ny = \"__INSTRUCTION_2__\"",
        { instructions :=
            [{ token := "__INSTRUCTION_1__", instruction_type := "g8r_output",
               args := ["b", "k"], target_path := "", expected_type := none },
             { token := "__INSTRUCTION_2__", instruction_type := "g8r_env",
               args := ["HOME"], target_path := "", expected_type := none }],
          next_token_id := 3 }) := rfl

/-! ### C7: roster selector matching -/

/-- C7: matches_selector is the trait-superset test together with the
roster_type equality test (each applied only when the selector field is
present, so an empty selector matches every roster); and match_roster
fails with the no-matching-roster error when no roster in the store
matches the selector. -/
theorem roster_selector_spec :
    (∀ (r : Roster) (sel : RosterSelector),
      r.matches_selector sel = true ↔
        ((∀ ts, sel.traits = some ts → ∀ t ∈ ts, t ∈ r.traits) ∧
         (∀ ty, sel.roster_type = some ty → r.roster_type = ty))) ∧
    (∀ (r : Roster), r.matches_selector ⟨none, none⟩ = true) ∧
    (∀ (rosters : List Roster) (sel : RosterSelector) (dn : String),
      (∀ r ∈ rosters, r.matches_selector sel = false) →
      match_roster rosters sel dn = .error ("No matching roster found for duty " ++ dn)) := by
  refine ⟨?_, ?_, ?_⟩
  · intro r sel
    rcases sel with ⟨straits, stype⟩
    rcases straits with _ | traits <;> rcases stype with _ | t <;>
      simp [Roster.matches_selector, Roster.has_all_traits, Roster.has_trait,
        List.all_eq_true, List.any_eq_true]
  · intro r
    simp [Roster.matches_selector]
  · intro rosters sel dn h
    rcases sel with ⟨straits, stype⟩
    rcases straits with _ | traits <;> rcases stype with _ | t
    · -- no traits, no type: every roster matches, so the store is empty
      cases hros : rosters with
      | nil => simp [match_roster, hros]
      | cons r rest =>
        have := h r (by rw [hros]; exact List.mem_cons_self r rest)
        simp [Roster.matches_selector] at this
    · -- no traits, some type
      have hnil : rosters.filter (fun r => r.roster_type == t) = [] := by
        rw [List.filter_eq_nil_iff]
        intro r hmem
        have hm := h r hmem
        simp only [Roster.matches_selector, Bool.true_and] at hm
        simp [hm]
      simp [match_roster, hnil]
    · -- some traits, no type
      have hnil : find_rosters_by_traits rosters traits = [] := by
        rw [find_rosters_by_traits, List.filter_eq_nil_iff]
        intro r hmem
        have hm := h r hmem
        simp only [Roster.matches_selector, Roster.has_all_traits, Bool.and_true] at hm
        simp [hm]
      simp [match_roster, hnil]
    · -- some traits, some type
      have hnil : (find_rosters_by_traits rosters traits).filter
          (fun r => r.roster_type == t) = [] := by
        rw [find_rosters_by_traits, List.filter_eq_nil_iff]
        intro r hr
        rw [List.mem_filter] at hr
        obtain ⟨hmem, htraits⟩ := hr
        have hm := h r hmem
        simp only [Roster.matches_selector, Roster.has_all_traits] at hm
        rw [htraits] at hm
        simp at hm
        simp [hm]
      simp [match_roster, hnil]

/-- Witness for C7 part three at scenario S4: the selector asking for a
nonexistent trait matches no roster of the store. -/
theorem roster_selector_spec_witness :
    (∀ r ∈ [r1Roster, r2Roster],
      r.matches_selector ⟨some ["nonexistent"], none⟩ = false) ∧
    match_roster [r1Roster, r2Roster] ⟨some ["nonexistent"], none⟩ "duty1" =
      .error ("No matching roster found for duty " ++ "duty1") :=
  ⟨by decide, roster_selector_spec.2.2 [r1Roster, r2Roster] ⟨some ["nonexistent"], none⟩
    "duty1" (by decide)⟩

/-! ### C9: the version gate of one stack sync step -/

theorem find?_map_name_pres (rows : List Stack) (f : Stack → Stack)
    (hf : ∀ s, (f s).name = s.name) (n : String) :
    (rows.map f).find? (fun s => s.name == n) =
      (rows.find? (fun s => s.name == n)).map f := by
  induction rows with
  | nil => rfl
  | cons s rest ih =>
    simp only [List.map_cons, List.find?_cons, hf s]
    cases h : (s.name == n) <;> simp [h, ih]

/-- C9: when the reported version equals the stored cursor, reconcile_once
performs no reconciliation and leaves the persisted rows unchanged; when
it differs, the status is first set to syncing and, on successful
reconciliation, update_stack_sync persists the new version with status
synced. -/
theorem reconcile_once_version_gate (db : List Stack) (stack : Stack)
    (source : SourceModel) (rr : Except String Unit) (now : Nat) :
    (∀ v, stack.last_sync_version = some v → source.versionResult = .ok v →
      source.fetchResult = .ok () →
      reconcile_once db stack source rr now = (.ok (), db, false)) ∧
    (∀ v2, source.fetchResult = .ok () → source.versionResult = .ok v2 →
      v2 ≠ stack.last_sync_version.getD "" →
      (∃ p, source.configPathResult = .ok p) → rr = .ok () →
      (reconcile_once db stack source rr now =
        (.ok (), update_stack_sync (update_stack_status db stack.name "syncing")
          stack.name v2 "synced" now, true) ∧
       ∀ s0, get_stack_by_name db stack.name = some s0 →
         ∃ s1, get_stack_by_name (reconcile_once db stack source rr now).2.1 stack.name =
             some s1 ∧
           s1.status = "synced" ∧ s1.last_sync_version = some v2 ∧
           s1.last_sync_at = some now)) := by
  constructor
  · intro v hcur hver hfetch
    simp [reconcile_once, hfetch, hver, hcur]
  · intro v2 hfetch hver hne ⟨p, hpath⟩ hrr
    have hbeq : (v2 == stack.last_sync_version.getD "") = false := by
      exact beq_eq_false_iff_ne.mpr hne
    have heq : reconcile_once db stack source rr now =
        (.ok (), update_stack_sync (update_stack_status db stack.name "syncing")
          stack.name v2 "synced" now, true) := by
      simp [reconcile_once, hfetch, hver, hbeq, hpath, hrr]
    refine ⟨heq, ?_⟩
    intro s0 hs0
    rw [heq]
    show ∃ s1, get_stack_by_name (update_stack_sync (update_stack_status db stack.name
        "syncing") stack.name v2 "synced" now) stack.name = some s1 ∧
      s1.status = "synced" ∧ s1.last_sync_version = some v2 ∧ s1.last_sync_at = some now
    have hname : (s0.name == stack.name) = true := by
      have := List.find?_some hs0
      exact this
    rw [update_stack_sync, update_stack_status, get_stack_by_name,
      find?_map_name_pres _ _ (by intro s; by_cases h : (s.name == stack.name) = true <;>
        simp [h]) stack.name,
      find?_map_name_pres _ _ (by intro s; by_cases h : (s.name == stack.name) = true <;>
        simp [h]) stack.name]
    rw [get_stack_by_name] at hs0
    rw [hs0]
    refine ⟨_, rfl, ?_⟩
    simp [hname]

/-- Witness for C9 at a concrete stack, both for the matching-version
source and for the updated-version source. -/
theorem reconcile_once_version_gate_witness :
    (c9Stack.last_sync_version = some "v1" ∧
      reconcile_once [c9Stack] c9Stack c9SourceSame (.ok ()) 5 = (.ok (), [c9Stack], false)) ∧
    (("v2" : String) ≠ c9Stack.last_sync_version.getD "" ∧
      reconcile_once [c9Stack] c9Stack c9SourceNew (.ok ()) 5 =
        (.ok (), update_stack_sync (update_stack_status [c9Stack] c9Stack.name "syncing")
          c9Stack.name "v2" "synced" 5, true)) :=
  ⟨⟨rfl, (reconcile_once_version_gate [c9Stack] c9Stack c9SourceSame (.ok ()) 5).1
      "v1" rfl rfl rfl⟩,
   ⟨by decide, ((reconcile_once_version_gate [c9Stack] c9Stack c9SourceNew (.ok ()) 5).2
      "v2" rfl rfl (by decide) ⟨"/w/main.ncl", rfl⟩ rfl).1⟩⟩

/-! ### Counting helpers for the Kahn proofs -/

theorem countP_split_and (l : List String) (p q : String → Bool) :
    l.countP p = l.countP (fun a => p a && q a) + l.countP (fun a => p a && !q a) := by
  induction l with
  | nil => simp
  | cons a l ih =>
    simp only [List.countP_cons, ih]
    cases hp : p a <;> cases hq : q a <;> simp [hp, hq] <;> omega

theorem countP_congr_mem (l : List String) (p q : String → Bool)
    (h : ∀ a ∈ l, p a = q a) : l.countP p = l.countP q := by
  induction l with
  | nil => rfl
  | cons a l ih =>
    simp only [List.countP_cons]
    rw [h a (List.mem_cons_self a l), ih (fun b hb => h b (List.mem_cons_of_mem a hb))]

theorem countP_or_disj (l : List String) (p q : String → Bool)
    (h : ∀ a ∈ l, ¬(p a = true ∧ q a = true)) :
    l.countP (fun a => p a || q a) = l.countP p + l.countP q := by
  induction l with
  | nil => simp
  | cons a l ih =>
    have ha := h a (List.mem_cons_self a l)
    have ih2 := ih (fun b hb => h b (List.mem_cons_of_mem a hb))
    simp only [List.countP_cons, ih2]
    cases hp : p a <;> cases hq : q a <;> simp [hp, hq] at ha ⊢ <;> omega

theorem countP_sub_of_imp (l : List String) (p q : String → Bool)
    (h : ∀ a ∈ l, q a = true → p a = true) :
    l.countP p - l.countP q = l.countP (fun a => p a && !q a) := by
  have hsplit := countP_split_and l p q
  have heq : l.countP (fun a => p a && q a) = l.countP q := by
    apply countP_congr_mem
    intro a ha
    cases hq : q a
    · simp [hq]
    · simp [hq, h a ha hq]
  omega

/-! ### Characterization of the graph construction -/

theorem new_fold_eq (ds : List Duty) : ∀ (g : DependencyGraph),
    (dutyNames ds).Nodup →
    (∀ d ∈ ds, d.name ∉ g.duties.map Prod.fst) →
    (∀ d ∈ ds, d.name ∉ g.edges.map Prod.fst) →
    ds.foldl (fun g d =>
        { duties := alSet g.duties d.name d, edges := alSet g.edges d.name d.depends_on }) g =
      ⟨g.duties ++ ds.map (fun d => (d.name, d)),
       g.edges ++ ds.map (fun d => (d.name, d.depends_on))⟩ := by
  induction ds with
  | nil => intro g _ _ _; simp
  | cons d rest ih =>
    intro g hnodup hd he
    have hdfresh : d.name ∉ g.duties.map Prod.fst := hd d (List.mem_cons_self d rest)
    have hefresh : d.name ∉ g.edges.map Prod.fst := he d (List.mem_cons_self d rest)
    have hnr : (dutyNames rest).Nodup := (List.nodup_cons.mp hnodup).2
    have hdn : d.name ∉ dutyNames rest := (List.nodup_cons.mp hnodup).1
    simp only [List.foldl_cons]
    rw [ih ⟨alSet g.duties d.name d, alSet g.edges d.name d.depends_on⟩ hnr ?_ ?_]
    · rw [alSet_fresh g.duties d.name d hdfresh,
        alSet_fresh g.edges d.name d.depends_on hefresh]
      simp
    · intro d2 hd2
      rw [alSet_fresh g.duties d.name d hdfresh]
      simp only [List.map_append, List.mem_append, List.map_cons, List.map_nil]
      rintro (h1 | h2)
      · exact hd d2 (List.mem_cons_of_mem d hd2) h1
      · simp at h2
        exact hdn (h2 ▸ List.mem_map_of_mem Duty.name hd2)
    · intro d2 hd2
      rw [alSet_fresh g.edges d.name d.depends_on hefresh]
      simp only [List.map_append, List.mem_append, List.map_cons, List.map_nil]
      rintro (h1 | h2)
      · exact he d2 (List.mem_cons_of_mem d hd2) h1
      · simp at h2
        exact hdn (h2 ▸ List.mem_map_of_mem Duty.name hd2)

theorem new_eq (ds : List Duty) (h : (dutyNames ds).Nodup) :
    DependencyGraph.new ds =
      ⟨ds.map (fun d => (d.name, d)), ds.map (fun d => (d.name, d.depends_on))⟩ := by
  rw [DependencyGraph.new, new_fold_eq ds ⟨[], []⟩ h (by simp) (by simp)]
  simp

/-! ### depsOf and rev0 -/

theorem depsOf_eq_of_mem (ds : List Duty) (h : (dutyNames ds).Nodup) (d : Duty)
    (hd : d ∈ ds) : depsOf ds d.name = d.depends_on := by
  induction ds with
  | nil => cases hd
  | cons d0 rest ih =>
    rcases List.mem_cons.mp hd with heq | hmem
    · subst heq
      simp [depsOf, List.find?_cons]
    · have hnr : (dutyNames rest).Nodup := (List.nodup_cons.mp h).2
      have hd0 : d0.name ∉ dutyNames rest := (List.nodup_cons.mp h).1
      have hne : (d0.name == d.name) = false := by
        apply beq_eq_false_iff_ne.mpr
        intro hc
        exact hd0 (hc ▸ List.mem_map_of_mem Duty.name hmem)
      have := ih hnr hmem
      simp only [depsOf, List.find?_cons, hne] at this ⊢
      exact this

theorem depsOf_eq_nil (ds : List Duty) (x : String) (h : x ∉ dutyNames ds) :
    depsOf ds x = [] := by
  have : ds.find? (fun d => d.name == x) = none := by
    rw [List.find?_eq_none]
    intro d hd
    simp only [beq_iff_eq]
    intro hc
    exact h (hc ▸ List.mem_map_of_mem Duty.name hd)
  simp [depsOf, this]

theorem mem_depsOf (ds : List Duty) (x dep : String) (h : dep ∈ depsOf ds x) :
    ∃ d ∈ ds, d.name = x ∧ dep ∈ d.depends_on := by
  rw [depsOf] at h
  cases hf : ds.find? (fun d => d.name == x) with
  | none => rw [hf] at h; simp at h
  | some d =>
    rw [hf] at h
    simp only [Option.map_some', Option.getD_some] at h
    refine ⟨d, List.mem_of_find?_eq_some hf, ?_, h⟩
    have := List.find?_some hf
    exact beq_iff_eq.mp this

theorem count_rev0 (ds : List Duty) (h : (dutyNames ds).Nodup) (m x : String) :
    (rev0 ds m).count x = (depsOf ds x).count m := by
  induction ds with
  | nil => simp [rev0, depsOf]
  | cons d rest ih =>
    have hnr : (dutyNames rest).Nodup := (List.nodup_cons.mp h).2
    have hd0 : d.name ∉ dutyNames rest := (List.nodup_cons.mp h).1
    rw [rev0, List.flatMap_cons, List.count_append]
    have hrest : (rest.flatMap (fun d => List.replicate (d.depends_on.count m) d.name)).count x
        = (depsOf rest x).count m := ih hnr
    by_cases hx : d.name = x
    · subst hx
      have h1 : (List.replicate (d.depends_on.count m) d.name).count d.name
          = d.depends_on.count m := by
        rw [List.count_replicate]
        simp
      have h2 : depsOf rest d.name = [] := depsOf_eq_nil rest d.name hd0
      have h3 : depsOf (d :: rest) d.name = d.depends_on := by
        simp [depsOf, List.find?_cons]
      rw [h1, hrest, h2, h3]
      simp
    · have h1 : (List.replicate (d.depends_on.count m) d.name).count x = 0 := by
        rw [List.count_replicate]
        simp only [beq_iff_eq, if_neg hx]
      have hne : (d.name == x) = false := beq_eq_false_iff_ne.mpr hx
      have h3 : depsOf (d :: rest) x = depsOf rest x := by
        simp only [depsOf, List.find?_cons, hne]
      rw [h1, hrest, h3]
      simp

theorem mem_rev0 (ds : List Duty) (m x : String) (h : x ∈ rev0 ds m) :
    x ∈ dutyNames ds := by
  rw [rev0, List.mem_flatMap] at h
  obtain ⟨d, hd, hx⟩ := h
  have := List.eq_of_mem_replicate hx
  exact this ▸ List.mem_map_of_mem Duty.name hd

/-! ### Characterization of the in-degree and reverse-edge construction -/

theorem addDeps_ok (nodes : List String) (node : String) :
    ∀ (deps : List String) (deg : String → Nat) (rev : String → List String),
    (∀ dep ∈ deps, nodes.contains dep = true) →
    addDeps nodes node deps deg rev =
      .ok (fun x => if x = node then deg x + deps.length else deg x,
           fun x => rev x ++ List.replicate (deps.count x) node) := by
  intro deps
  induction deps with
  | nil =>
    intro deg rev _
    simp only [addDeps]
    congr 1
    rw [Prod.mk.injEq]
    constructor
    · funext x
      by_cases hx : x = node <;> simp [hx]
    · funext x
      simp
  | cons dep rest ih =>
    intro deg rev h
    have hdep := h dep (List.mem_cons_self dep rest)
    simp only [addDeps, hdep, if_true]
    rw [ih _ _ (fun d hd => h d (List.mem_cons_of_mem dep hd))]
    congr 1
    rw [Prod.mk.injEq]
    constructor
    · funext x
      by_cases hx : x = node
      · simp [fupd, hx, List.length_cons]
        omega
      · simp [fupd, hx, List.length_cons]
    · funext x
      by_cases hx : x = dep
      · subst hx
        have h1 : List.count x (x :: rest) = List.count x rest + 1 := by
          simp [List.count_cons]
        have h2 : fupd rev x (rev x ++ [node]) x = rev x ++ [node] := by
          simp [fupd]
        rw [h1, h2, List.append_assoc]
        congr 1
      · have hb : (dep == x) = false := by
          apply beq_eq_false_iff_ne.mpr
          intro hc
          exact hx hc.symm
        have h2 : fupd rev dep (rev dep ++ [node]) x = rev x := by
          simp [fupd, hx]
        rw [h2]
        congr 2
        simp [List.count_cons, hb]

theorem addEdges_ok (nodes : List String) :
    ∀ (es : List (String × List String)) (deg : String → Nat) (rev : String → List String),
    (∀ e ∈ es, ∀ dep ∈ e.2, nodes.contains dep = true) →
    addEdges nodes es deg rev =
      .ok (fun x => deg x + ((es.map (fun e => if e.1 = x then e.2.length else 0)).sum),
           fun x => rev x ++ es.flatMap (fun e => List.replicate (e.2.count x) e.1)) := by
  intro es
  induction es with
  | nil =>
    intro deg rev _
    simp only [addEdges]
    congr 1
    rw [Prod.mk.injEq]
    constructor
    · funext x; simp
    · funext x; simp
  | cons e rest ih =>
    intro deg rev h
    obtain ⟨node, deps⟩ := e
    simp only [addEdges]
    rw [addDeps_ok nodes node deps deg rev (h (node, deps) (List.mem_cons_self _ rest))]
    simp only
    rw [ih _ _ (fun e2 he2 => h e2 (List.mem_cons_of_mem _ he2))]
    congr 1
    rw [Prod.mk.injEq]
    constructor
    · funext x
      by_cases hx : node = x
      · subst hx
        simp only [List.map_cons, List.sum_cons]
        simp
        omega
      · have h2 : ¬(x = node) := fun hc => hx hc.symm
        simp only [List.map_cons, List.sum_cons, if_neg h2, if_neg hx]
        omega
    · funext x
      simp [List.flatMap_cons, List.append_assoc]

/-! ### The decrement sequence of one Kahn round -/

theorem stepAll_spec : ∀ (D : List String) (deg : String → Nat) (ps : List String),
    ((D.foldl kahnStep (deg, ps)).1 = fun x => deg x - D.count x) ∧
    (∀ x, (D.foldl kahnStep (deg, ps)).2.count x =
      ps.count x + (if 1 ≤ deg x ∧ deg x ≤ D.count x then 1 else 0)) := by
  intro D
  induction D with
  | nil =>
    intro deg ps
    constructor
    · funext x; simp
    · intro x
      simp only [List.foldl_nil, List.count_nil]
      have hno : ¬(1 ≤ deg x ∧ deg x ≤ 0) := by omega
      rw [if_neg hno]
      omega
  | cons y D ih =>
    intro deg ps
    have hstep : kahnStep (deg, ps) y =
        (fupd deg y (deg y - 1), if deg y = 1 then ps ++ [y] else ps) := rfl
    obtain ⟨ih1, ih2⟩ := ih (fupd deg y (deg y - 1)) (if deg y = 1 then ps ++ [y] else ps)
    constructor
    · rw [List.foldl_cons, hstep, ih1]
      funext x
      by_cases hx : x = y
      · subst hx
        simp only [fupd, List.count_cons]
        simp
        omega
      · have hb : (y == x) = false := by
          apply beq_eq_false_iff_ne.mpr
          intro hc
          exact hx hc.symm
        simp only [fupd, if_neg hx, List.count_cons, hb]
        simp
    · intro x
      rw [List.foldl_cons, hstep]
      rw [ih2 x]
      by_cases hx : x = y
      · subst hx
        have hcnt : List.count x (x :: D) = List.count x D + 1 := by
          simp [List.count_cons]
        have hupd : fupd deg x (deg x - 1) x = deg x - 1 := by simp [fupd]
        rw [hcnt, hupd]
        rcases Nat.lt_trichotomy (deg x) 1 with hd | hd | hd
        · have hd0 : deg x = 0 := by omega
          have hps : (if deg x = 1 then ps ++ [x] else ps) = ps := by
            rw [if_neg]; omega
          rw [hps, hd0]
          simp
        · have hps : (if deg x = 1 then ps ++ [x] else ps) = ps ++ [x] := by
            rw [if_pos hd]
          rw [hps, hd, List.count_append]
          have h1 : ¬(1 ≤ (1 : Nat) - 1 ∧ (1 : Nat) - 1 ≤ List.count x D) := by omega
          have h2 : (1 ≤ (1 : Nat) ∧ (1 : Nat) ≤ List.count x D + 1) := by omega
          rw [if_neg h1, if_pos h2]
          simp [List.count_singleton]
        · have hps : (if deg x = 1 then ps ++ [x] else ps) = ps := by
            rw [if_neg]; omega
          rw [hps]
          have harith : (if 1 ≤ deg x - 1 ∧ deg x - 1 ≤ List.count x D then 1 else 0) =
              (if 1 ≤ deg x ∧ deg x ≤ List.count x D + 1 then (1 : Nat) else 0) := by
            by_cases hc : deg x - 1 ≤ List.count x D
            · rw [if_pos ⟨by omega, hc⟩, if_pos ⟨by omega, by omega⟩]
            · rw [if_neg (by omega), if_neg (by omega)]
          rw [harith]
      · have hb : (y == x) = false := by
          apply beq_eq_false_iff_ne.mpr
          intro hc
          exact hx hc.symm
        have hcnt : List.count x (y :: D) = List.count x D := by
          simp [List.count_cons, hb]
        have hupd : fupd deg y (deg y - 1) x = deg x := by simp [fupd, hx]
        rw [hcnt, hupd]
        by_cases hdy : deg y = 1
        · rw [if_pos hdy, List.count_append]
          simp [List.count_singleton, hb]
        · rw [if_neg hdy]

theorem foldl_popNode_flatMap (rev : String → List String) :
    ∀ (Q : List String) (st : (String → Nat) × List String),
    Q.foldl (popNode rev) st = (Q.flatMap rev).foldl kahnStep st := by
  intro Q
  induction Q with
  | nil => intro st; rfl
  | cons m Q ih =>
    intro st
    rw [List.foldl_cons, List.flatMap_cons, List.foldl_append, ih]
    rfl

theorem runBatch_eq_stepAll (rev : String → List String) (deg : String → Nat)
    (Q : List String) :
    runBatch rev deg Q = (Q.flatMap rev).foldl kahnStep (deg, []) := by
  rw [runBatch, foldl_popNode_flatMap]

theorem count_flatMap_rev0 (ds : List Duty) (h : (dutyNames ds).Nodup) :
    ∀ (Q : List String), Q.Nodup → ∀ (x : String),
    ((Q.flatMap (rev0 ds)).count x) = (depsOf ds x).countP (fun dep => Q.contains dep) := by
  intro Q
  induction Q with
  | nil =>
    intro _ x
    simp
  | cons m Q ih =>
    intro hnd x
    have hmQ : m ∉ Q := (List.nodup_cons.mp hnd).1
    have hQ : Q.Nodup := (List.nodup_cons.mp hnd).2
    rw [List.flatMap_cons, List.count_append, count_rev0 ds h m x, ih hQ x]
    have hsplit : (depsOf ds x).countP (fun dep => (m :: Q).contains dep) =
        (depsOf ds x).countP (fun dep => dep == m) +
        (depsOf ds x).countP (fun dep => Q.contains dep) := by
      have hcongr : (depsOf ds x).countP (fun dep => (m :: Q).contains dep) =
          (depsOf ds x).countP (fun dep => (dep == m) || Q.contains dep) := by
        apply countP_congr_mem
        intro a _
        rw [List.contains_cons]
      rw [hcongr]
      apply countP_or_disj
      intro a _
      rintro ⟨h1, h2⟩
      rw [beq_iff_eq] at h1
      subst h1
      rw [List.contains_eq_any_beq] at h2
      simp [List.any_eq_true] at h2
      exact hmQ h2
    rw [hsplit, List.count_eq_countP]

theorem contains_iff_mem_str (l : List String) (a : String) :
    l.contains a = true ↔ a ∈ l := by
  induction l with
  | nil => simp
  | cons b l ih =>
    rw [List.contains_cons]
    simp only [Bool.or_eq_true, beq_iff_eq, ih, List.mem_cons]

theorem contains_append_str (P Q : List String) (a : String) :
    (P ++ Q).contains a = (P.contains a || Q.contains a) := by
  induction P with
  | nil => simp [List.contains_cons]
  | cons b P ih =>
    simp only [List.cons_append, List.contains_cons, ih, Bool.or_assoc]

/-- One round of the Kahn loop preserves the invariant. -/
theorem KahnInv_step (ds : List Duty) (hnodup : (dutyNames ds).Nodup)
    (deg : String → Nat) (queue : List String) (batches : List (List String))
    (hInv : KahnInv ds deg queue batches) :
    KahnInv ds (runBatch (rev0 ds) deg queue).1 (runBatch (rev0 ds) deg queue).2
      (batches ++ [queue]) := by
  obtain ⟨hnd, hsub, hdeg, hqueue, hord⟩ := hInv
  have hQnd : queue.Nodup := (List.nodup_append.mp hnd).2.1
  have hdisj : List.Disjoint batches.flatten queue := (List.nodup_append.mp hnd).2.2
  have factA : ∀ x ∈ batches.flatten, ∀ dep ∈ depsOf ds x, dep ∈ batches.flatten := by
    intro x hx dep hdep
    rw [List.mem_flatten] at hx
    obtain ⟨l, hl, hxl⟩ := hx
    obtain ⟨i, hi⟩ := List.mem_iff_getElem?.mp hl
    obtain ⟨j, bj, _, hbj, hdepbj⟩ := hord i l hi x hxl dep hdep
    rw [List.mem_flatten]
    exact ⟨bj, List.mem_iff_getElem?.mpr ⟨j, hbj⟩, hdepbj⟩
  have factB : ∀ x ∈ batches.flatten, deg x = 0 := by
    intro x hx
    rw [hdeg x, List.countP_eq_zero]
    intro dep hdep
    have hdm := factA x hx dep hdep
    rw [← contains_iff_mem_str] at hdm
    rw [hdm]
    simp
  have factC : ∀ x ∈ queue, deg x = 0 := by
    intro x hx
    have hxn : x ∈ dutyNames ds := hsub x (List.mem_append_right _ hx)
    have hxP : x ∉ batches.flatten := fun hc => hdisj hc hx
    exact (hqueue x hxn hxP).mpr hx
  have hst : runBatch (rev0 ds) deg queue =
      (queue.flatMap (rev0 ds)).foldl kahnStep (deg, []) := runBatch_eq_stepAll _ _ _
  obtain ⟨hdeg2, hcnt⟩ := stepAll_spec (queue.flatMap (rev0 ds)) deg []
  have hDcount : ∀ x, List.count x (queue.flatMap (rev0 ds)) =
      (depsOf ds x).countP (fun dep => queue.contains dep) :=
    count_flatMap_rev0 ds hnodup queue hQnd
  have hdeg2v : ∀ x, (runBatch (rev0 ds) deg queue).1 x =
      deg x - (depsOf ds x).countP (fun dep => queue.contains dep) := by
    intro x
    rw [hst]
    simp only [hdeg2, hDcount]
  have hcntv : ∀ x, List.count x (runBatch (rev0 ds) deg queue).2 =
      (if 1 ≤ deg x ∧ deg x ≤ (depsOf ds x).countP (fun dep => queue.contains dep)
       then 1 else 0) := by
    intro x
    rw [hst]
    simp only [hcnt, hDcount, List.count_nil]
    simp
  have hpush_iff : ∀ x, x ∈ (runBatch (rev0 ds) deg queue).2 ↔
      (1 ≤ deg x ∧ deg x ≤ (depsOf ds x).countP (fun dep => queue.contains dep)) := by
    intro x
    rw [← List.count_pos_iff, hcntv x]
    by_cases hc : 1 ≤ deg x ∧ deg x ≤ (depsOf ds x).countP (fun dep => queue.contains dep)
    · rw [if_pos hc]
      simp only [Nat.lt_irrefl, Nat.zero_lt_one, true_iff]
      exact hc
    · rw [if_neg hc]
      simp only [Nat.lt_irrefl, false_iff]
      exact hc
  have hpush_names : ∀ x ∈ (runBatch (rev0 ds) deg queue).2, x ∈ dutyNames ds := by
    intro x hx
    by_contra hc
    have h0 : depsOf ds x = [] := depsOf_eq_nil ds x hc
    have := (hpush_iff x).mp hx
    rw [hdeg x, h0] at this
    simp at this
  have hpush_fresh : ∀ x ∈ (runBatch (rev0 ds) deg queue).2,
      x ∉ batches.flatten ++ queue := by
    intro x hx hc
    have h1 : 1 ≤ deg x := ((hpush_iff x).mp hx).1
    rcases List.mem_append.mp hc with hc | hc
    · rw [factB x hc] at h1; omega
    · rw [factC x hc] at h1; omega
  have hpush_nodup : (runBatch (rev0 ds) deg queue).2.Nodup := by
    rw [List.nodup_iff_count_le_one]
    intro x
    rw [hcntv x]
    by_cases hc : 1 ≤ deg x ∧ deg x ≤ (depsOf ds x).countP (fun dep => queue.contains dep)
    · rw [if_pos hc]
    · rw [if_neg hc]
      omega
  have hflat : (batches ++ [queue]).flatten = batches.flatten ++ queue := by simp
  refine ⟨?_, ?_, ?_, ?_, ?_⟩
  · -- nodup of processed ++ new queue
    rw [hflat]
    rw [List.nodup_append]
    exact ⟨hnd, hpush_nodup, fun a ha hb => hpush_fresh a hb ha⟩
  · -- membership in duty names
    rw [hflat]
    intro x hx
    rcases List.mem_append.mp hx with hx | hx
    · exact hsub x hx
    · exact hpush_names x hx
  · -- in-degree characterization
    intro x
    rw [hflat, hdeg2v x, hdeg x]
    have hsubst : (depsOf ds x).countP (fun dep => !(batches.flatten.contains dep)) -
        (depsOf ds x).countP (fun dep => queue.contains dep) =
        (depsOf ds x).countP
          (fun dep => !(batches.flatten.contains dep) && !(queue.contains dep)) := by
      apply countP_sub_of_imp
      intro a _ haq
      rw [contains_iff_mem_str] at haq
      have hna : a ∉ batches.flatten := fun hc => hdisj hc haq
      have hcf : batches.flatten.contains a = false := by
        cases hcc : batches.flatten.contains a
        · rfl
        · exact absurd ((contains_iff_mem_str _ _).mp hcc) hna
      show (!batches.flatten.contains a) = true
      rw [hcf]
      rfl
    rw [hsubst]
    apply countP_congr_mem
    intro a _
    rw [contains_append_str]
    cases h1 : batches.flatten.contains a <;> cases h2 : queue.contains a <;> simp
  · -- queue characterization
    rw [hflat]
    intro x hxn hxnew
    constructor
    · intro h0
      rw [hpush_iff x]
      have hxP : x ∉ batches.flatten := fun hc => hxnew (List.mem_append_left _ hc)
      have hxQ : x ∉ queue := fun hc => hxnew (List.mem_append_right _ hc)
      have hdpos : 1 ≤ deg x := by
        by_contra hc
        have h00 : deg x = 0 := by omega
        exact hxQ ((hqueue x hxn hxP).mp h00)
      refine ⟨hdpos, ?_⟩
      rw [hdeg2v x] at h0
      omega
    · intro hmem
      obtain ⟨h1, h2⟩ := (hpush_iff x).mp hmem
      rw [hdeg2v x]
      omega
  · -- batch ordering
    intro i bi hbi x hxbi dep hdep
    by_cases hi : i < batches.length
    · have hbi2 : batches[i]? = some bi := by
        rw [List.getElem?_append] at hbi
        rw [if_pos hi] at hbi
        exact hbi
      obtain ⟨j, bj, hji, hbj, hdepbj⟩ := hord i bi hbi2 x hxbi dep hdep
      have hjlt : j < batches.length := by
        rcases List.getElem?_eq_some_iff.mp hbj with ⟨hj, _⟩
        exact hj
      refine ⟨j, bj, hji, ?_, hdepbj⟩
      rw [List.getElem?_append, if_pos hjlt]
      exact hbj
    · -- the new batch: i = batches.length, bi = queue
      have hieq : i = batches.length := by
        rcases List.getElem?_eq_some_iff.mp hbi with ⟨hilen, _⟩
        simp only [List.length_append, List.length_cons, List.length_nil] at hilen
        omega
      subst hieq
      have hbiq : bi = queue := by
        rw [List.getElem?_concat_length] at hbi
        exact (Option.some.inj hbi).symm
      subst hbiq
      have hdeg0 : deg x = 0 := factC x hxbi
      rw [hdeg x, List.countP_eq_zero] at hdeg0
      have hdepP : dep ∈ batches.flatten := by
        have h2 := hdeg0 dep hdep
        rw [← contains_iff_mem_str]
        cases hcc : batches.flatten.contains dep
        · exfalso
          apply h2
          rw [hcc]
          rfl
        · rfl
      rw [List.mem_flatten] at hdepP
      obtain ⟨bj, hbjmem, hdepbj⟩ := hdepP
      obtain ⟨j, hj⟩ := List.mem_iff_getElem?.mp hbjmem
      have hjlt : j < batches.length := by
        rcases List.getElem?_eq_some_iff.mp hj with ⟨hjl, _⟩
        exact hjl
      refine ⟨j, bj, hjlt, ?_, hdepbj⟩
      rw [List.getElem?_append, if_pos hjlt]
      exact hj

/-- What the Kahn while-loop guarantees: under the invariant and with
enough fuel, the final batches are distinct duty names, every dep of a
popped name sits in a strictly earlier batch, and every unpopped name
retains an unpopped dep. -/
theorem kahnLoopF_spec (ds : List Duty) (hnodup : (dutyNames ds).Nodup) :
    ∀ (fuel : Nat) (deg : String → Nat) (queue : List String)
      (batches : List (List String)),
    KahnInv ds deg queue batches →
    (dutyNames ds).length + 1 ≤ fuel + batches.flatten.length →
    (kahnLoopF (rev0 ds) fuel deg queue batches).flatten.Nodup ∧
    (∀ x ∈ (kahnLoopF (rev0 ds) fuel deg queue batches).flatten, x ∈ dutyNames ds) ∧
    (∀ (i : Nat) (bi : List String),
      (kahnLoopF (rev0 ds) fuel deg queue batches)[i]? = some bi →
      ∀ x ∈ bi, ∀ dep ∈ depsOf ds x, ∃ (j : Nat) (bj : List String), j < i ∧
        (kahnLoopF (rev0 ds) fuel deg queue batches)[j]? = some bj ∧ dep ∈ bj) ∧
    (∀ x ∈ dutyNames ds, x ∉ (kahnLoopF (rev0 ds) fuel deg queue batches).flatten →
      ∃ dep ∈ depsOf ds x, dep ∉ (kahnLoopF (rev0 ds) fuel deg queue batches).flatten) := by
  intro fuel
  induction fuel with
  | zero =>
    intro deg queue batches hInv hfuel
    exfalso
    obtain ⟨hnd, hsub, _, _, _⟩ := hInv
    have hle : (batches.flatten ++ queue).length ≤ (dutyNames ds).length :=
      (List.Nodup.subperm hnd (fun x hx => hsub x hx)).length_le
    rw [List.length_append] at hle
    omega
  | succ fuel ih =>
    intro deg queue batches hInv hfuel
    by_cases hq : queue.isEmpty
    · have hqe : queue = [] := List.isEmpty_iff.mp hq
      have hred : kahnLoopF (rev0 ds) (fuel + 1) deg queue batches = batches := by
        rw [kahnLoopF, if_pos hq]
      rw [hred]
      obtain ⟨hnd, hsub, hdeg, hqueue, hord⟩ := hInv
      subst hqe
      simp only [List.append_nil] at hnd hsub
      refine ⟨hnd, hsub, hord, ?_⟩
      intro x hxn hxf
      have hne : deg x ≠ 0 := by
        intro h0
        have := (hqueue x hxn hxf).mp h0
        cases this
      rw [hdeg x] at hne
      have hpos : 0 < (depsOf ds x).countP
          (fun dep => !batches.flatten.contains dep) := Nat.pos_of_ne_zero hne
      rw [List.countP_pos_iff] at hpos
      obtain ⟨dep, hdep, hdepc⟩ := hpos
      refine ⟨dep, hdep, ?_⟩
      intro hc
      rw [← contains_iff_mem_str] at hc
      rw [hc] at hdepc
      cases hdepc
    · have hred : kahnLoopF (rev0 ds) (fuel + 1) deg queue batches =
          kahnLoopF (rev0 ds) fuel (runBatch (rev0 ds) deg queue).1
            (runBatch (rev0 ds) deg queue).2 (batches ++ [queue]) := by
        rw [kahnLoopF, if_neg hq]
      rw [hred]
      have hInv2 := KahnInv_step ds hnodup deg queue batches hInv
      apply ih _ _ _ hInv2
      have hql : 1 ≤ queue.length := by
        cases hqe : queue with
        | nil => rw [hqe] at hq; simp at hq
        | cons a l => simp [hqe]
      have : (batches ++ [queue]).flatten.length = batches.flatten.length + queue.length := by
        simp
      omega

theorem degSum_eq (ds : List Duty) (hnodup : (dutyNames ds).Nodup) (x : String) :
    ((ds.map (fun d => (d.name, d.depends_on))).map
      (fun e => if e.1 = x then e.2.length else 0)).sum = (depsOf ds x).length := by
  induction ds with
  | nil => simp [depsOf]
  | cons d rest ih =>
    have hnr : (dutyNames rest).Nodup := (List.nodup_cons.mp hnodup).2
    have hd0 : d.name ∉ dutyNames rest := (List.nodup_cons.mp hnodup).1
    simp only [List.map_cons, List.sum_cons]
    by_cases hx : d.name = x
    · subst hx
      have hz : ((rest.map (fun d => (d.name, d.depends_on))).map
          (fun e => if e.1 = d.name then e.2.length else 0)).sum = 0 := by
        apply List.sum_eq_zero
        intro t ht
        rw [List.mem_map] at ht
        obtain ⟨e, he, rfl⟩ := ht
        rw [List.mem_map] at he
        obtain ⟨d2, hd2, rfl⟩ := he
        have : d2.name ≠ d.name := by
          intro hc
          exact hd0 (hc ▸ List.mem_map_of_mem Duty.name hd2)
        simp [this]
      have hdeps : depsOf (d :: rest) d.name = d.depends_on := by
        simp [depsOf, List.find?_cons]
      rw [hz, hdeps]
      simp
    · have hne : (d.name == x) = false := beq_eq_false_iff_ne.mpr hx
      have hdeps : depsOf (d :: rest) x = depsOf rest x := by
        simp only [depsOf, List.find?_cons, hne]
      rw [hdeps, ← ih hnr]
      simp [hx]

theorem flatMap_map_rev (ds : List Duty) (x : String) :
    (ds.map (fun d => (d.name, d.depends_on))).flatMap
      (fun e => List.replicate (e.2.count x) e.1) = rev0 ds x := by
  induction ds with
  | nil => simp [rev0]
  | cons d rest ih =>
    simp only [List.map_cons, List.flatMap_cons, rev0] at ih ⊢
    rw [ih]

/-- Under distinct names and resolving deps, topological_sort runs the
Kahn loop from the closed-form in-degrees and reverse edges and compares
the processed count; the run satisfies the loop guarantees. -/
theorem topological_sort_run (ds : List Duty) (hnodup : (dutyNames ds).Nodup)
    (hres : ∀ d ∈ ds, ∀ dep ∈ d.depends_on, dep ∈ dutyNames ds) :
    ∃ run, (DependencyGraph.new ds).topological_sort =
        (if (run.map (fun b => b.length)).sum = ds.length then .ok run
         else .error "Circular dependency detected in duty graph") ∧
      run.flatten.Nodup ∧
      (∀ x ∈ run.flatten, x ∈ dutyNames ds) ∧
      (∀ (i : Nat) (bi : List String), run[i]? = some bi →
        ∀ x ∈ bi, ∀ dep ∈ depsOf ds x, ∃ (j : Nat) (bj : List String), j < i ∧
          run[j]? = some bj ∧ dep ∈ bj) ∧
      (∀ x ∈ dutyNames ds, x ∉ run.flatten →
        ∃ dep ∈ depsOf ds x, dep ∉ run.flatten) := by
  have hnew := new_eq ds hnodup
  have hd : (DependencyGraph.new ds).duties = ds.map (fun d => (d.name, d)) := by
    rw [hnew]
  have he : (DependencyGraph.new ds).edges = ds.map (fun d => (d.name, d.depends_on)) := by
    rw [hnew]
  have hnodes : (ds.map (fun d => (d.name, d))).map Prod.fst = dutyNames ds := by
    rw [List.map_map]
    rfl
  have hlen : (ds.map (fun d => (d.name, d))).length = ds.length := List.length_map _ _
  have hset : ∀ e ∈ ds.map (fun d => (d.name, d.depends_on)), ∀ dep ∈ e.2,
      (dutyNames ds).contains dep = true := by
    intro e hemem dep hdep
    rw [List.mem_map] at hemem
    obtain ⟨d2, hd2, rfl⟩ := hemem
    rw [contains_iff_mem_str]
    exact hres d2 hd2 dep hdep
  have hadd := addEdges_ok (dutyNames ds) (ds.map (fun d => (d.name, d.depends_on)))
    (fun _ => 0) (fun _ => []) hset
  have hdegf : (fun x => (fun _ => (0 : Nat)) x +
      ((ds.map (fun d => (d.name, d.depends_on))).map
        (fun e => if e.1 = x then e.2.length else 0)).sum) =
      (fun x => (depsOf ds x).length) := by
    funext x
    rw [degSum_eq ds hnodup x]
    simp
  have hrevf : (fun x => (fun _ => ([] : List String)) x ++
      (ds.map (fun d => (d.name, d.depends_on))).flatMap
        (fun e => List.replicate (e.2.count x) e.1)) = rev0 ds := by
    funext x
    rw [flatMap_map_rev ds x]
    simp [rev0]
  rw [hdegf, hrevf] at hadd
  have hsort : (DependencyGraph.new ds).topological_sort =
      (let run := kahnLoopF (rev0 ds) (ds.length + 1) (fun x => (depsOf ds x).length)
        ((dutyNames ds).filter (fun n => (depsOf ds n).length == 0)) [];
       if (run.map (fun b => b.length)).sum = ds.length then .ok run
       else .error "Circular dependency detected in duty graph") := by
    rw [DependencyGraph.topological_sort]
    rw [hd, he, hnodes, hadd]
    simp only [hlen]
  set run := kahnLoopF (rev0 ds) (ds.length + 1) (fun x => (depsOf ds x).length)
    ((dutyNames ds).filter (fun n => (depsOf ds n).length == 0)) [] with hrun
  have hInv0 : KahnInv ds (fun x => (depsOf ds x).length)
      ((dutyNames ds).filter (fun n => (depsOf ds n).length == 0)) [] := by
    refine ⟨?_, ?_, ?_, ?_, ?_⟩
    · simp only [List.flatten_nil, List.nil_append]
      exact List.Nodup.filter _ hnodup
    · intro x hx
      simp only [List.flatten_nil, List.nil_append] at hx
      exact (List.mem_filter.mp hx).1
    · intro x
      simp
    · intro x hxn _
      simp only [List.flatten_nil]
      rw [List.mem_filter]
      constructor
      · intro h0
        exact ⟨hxn, by simp [h0]⟩
      · intro hc
        have := hc.2
        simpa using this
    · intro i bi hbi
      simp at hbi
  have hfuel : (dutyNames ds).length + 1 ≤ (ds.length + 1) + ([] :
      List (List String)).flatten.length := by
    simp [dutyNames]
  obtain ⟨h1, h2, h3, h4⟩ := kahnLoopF_spec ds hnodup (ds.length + 1)
    (fun x => (depsOf ds x).length)
    ((dutyNames ds).filter (fun n => (depsOf ds n).length == 0)) [] hInv0 hfuel
  exact ⟨run, hsort, h1, h2, h3, h4⟩

/-- With a topological ranking, every duty name is processed: an unpopped
name with minimal rank would need an unpopped dep of smaller rank. -/
theorem names_all_processed (ds : List Duty)
    (hres : ∀ d ∈ ds, ∀ dep ∈ d.depends_on, dep ∈ dutyNames ds)
    (rank : String → Nat)
    (hrank : ∀ d ∈ ds, ∀ dep ∈ d.depends_on, rank dep < rank d.name)
    (fl : List String)
    (hiv : ∀ x ∈ dutyNames ds, x ∉ fl → ∃ dep ∈ depsOf ds x, dep ∉ fl) :
    ∀ x ∈ dutyNames ds, x ∈ fl := by
  have key : ∀ k, ∀ x ∈ dutyNames ds, rank x < k → x ∈ fl := by
    intro k
    induction k with
    | zero => intro x _ h; omega
    | succ k ihk =>
      intro x hx hr
      by_contra hc
      obtain ⟨dep, hdep, hdepn⟩ := hiv x hx hc
      obtain ⟨d, hdmem, hdn, hdepd⟩ := mem_depsOf ds x dep hdep
      have hlt : rank dep < rank x := hdn ▸ hrank d hdmem dep hdepd
      have hdepnames : dep ∈ dutyNames ds := hres d hdmem dep hdepd
      exact hdepn (ihk dep hdepnames (by omega))
  intro x hx
  exact key (rank x + 1) x hx (by omega)

/-- In a list of batches with globally distinct elements, an element pins
down its batch index. -/
theorem flatten_nodup_batch_unique :
    ∀ (L : List (List String)), L.flatten.Nodup →
    ∀ (i j : Nat) (bi bj : List String), L[i]? = some bi → L[j]? = some bj →
    ∀ x, x ∈ bi → x ∈ bj → i = j := by
  intro L
  induction L with
  | nil =>
    intro _ i j bi bj hbi
    simp at hbi
  | cons b rest ih =>
    intro hnd i j bi bj hbi hbj x hxbi hxbj
    have hb : (b ++ rest.flatten).Nodup := by simpa using hnd
    have hdisj : List.Disjoint b rest.flatten := (List.nodup_append.mp hb).2.2
    have hrest : rest.flatten.Nodup := (List.nodup_append.mp hb).2.1
    match i, j with
    | 0, 0 => rfl
    | 0, j + 1 =>
      exfalso
      simp only [List.getElem?_cons_zero] at hbi
      simp only [List.getElem?_cons_succ] at hbj
      have hbeq : bi = b := (Option.some.inj hbi).symm
      subst hbeq
      have hbjmem : bj ∈ rest := by
        rcases List.getElem?_eq_some_iff.mp hbj with ⟨hlt, hbj2⟩
        exact hbj2 ▸ List.getElem_mem hlt
      exact hdisj hxbi (List.mem_flatten.mpr ⟨bj, hbjmem, hxbj⟩)
    | i + 1, 0 =>
      exfalso
      simp only [List.getElem?_cons_zero] at hbj
      simp only [List.getElem?_cons_succ] at hbi
      have hbeq : bj = b := (Option.some.inj hbj).symm
      subst hbeq
      have hbimem : bi ∈ rest := by
        rcases List.getElem?_eq_some_iff.mp hbi with ⟨hlt, hbi2⟩
        exact hbi2 ▸ List.getElem_mem hlt
      exact hdisj hxbj (List.mem_flatten.mpr ⟨bi, hbimem, hxbi⟩)
    | i + 1, j + 1 =>
      simp only [List.getElem?_cons_succ] at hbi hbj
      have := ih hrest i j bi bj hbi hbj x hxbi hxbj
      omega

/-- Core content shared by the planning claims: topological_sort returns
Ok with batches that partition the duty names and place every dependency
in a strictly earlier batch than its dependent. -/
theorem topological_sort_plan_core (ds : List Duty)
    (hnodup : (dutyNames ds).Nodup)
    (hres : ∀ d ∈ ds, ∀ dep ∈ d.depends_on, dep ∈ dutyNames ds)
    (rank : String → Nat)
    (hrank : ∀ d ∈ ds, ∀ dep ∈ d.depends_on, rank dep < rank d.name) :
    ∃ batches, (DependencyGraph.new ds).topological_sort = .ok batches ∧
      (∀ n, List.count n batches.flatten = if n ∈ dutyNames ds then 1 else 0) ∧
      (∀ d ∈ ds, ∀ dep ∈ d.depends_on,
        ∀ (i j : Nat) (bi bj : List String), batches[i]? = some bi →
          batches[j]? = some bj → d.name ∈ bi → dep ∈ bj → j < i) := by
  obtain ⟨run, hsort, hnd, hsub, hord, hiv⟩ := topological_sort_run ds hnodup hres
  have hcomplete : ∀ x ∈ dutyNames ds, x ∈ run.flatten :=
    names_all_processed ds hres rank hrank run.flatten hiv
  have hle1 : run.flatten.length ≤ (dutyNames ds).length :=
    (List.Nodup.subperm hnd (fun x hx => hsub x hx)).length_le
  have hle2 : (dutyNames ds).length ≤ run.flatten.length :=
    (List.Nodup.subperm hnodup (fun x hx => hcomplete x hx)).length_le
  have hnames_len : (dutyNames ds).length = ds.length := List.length_map _ _
  have hcount : (run.map (fun b => b.length)).sum = ds.length := by
    rw [← List.length_flatten]
    omega
  rw [hcount, if_pos rfl] at hsort
  refine ⟨run, hsort, ?_, ?_⟩
  · intro n
    by_cases hn : n ∈ dutyNames ds
    · rw [if_pos hn]
      have hmem := hcomplete n hn
      have hge : 1 ≤ List.count n run.flatten := List.count_pos_iff.mpr hmem
      have hle : List.count n run.flatten ≤ 1 := List.nodup_iff_count_le_one.mp hnd n
      omega
    · rw [if_neg hn]
      by_contra hc
      have hpos : 0 < List.count n run.flatten := Nat.pos_of_ne_zero hc
      exact hn (hsub n (List.count_pos_iff.mp hpos))
  · intro d hdmem dep hdep i j bi bj hbi hbj hdbi hdepbj
    have hdeps : dep ∈ depsOf ds d.name := by
      rw [depsOf_eq_of_mem ds hnodup d hdmem]
      exact hdep
    obtain ⟨j2, bj2, hj2i, hbj2, hdepbj2⟩ := hord i bi hbi d.name hdbi dep hdeps
    have : j = j2 := flatten_nodup_batch_unique run hnd j j2 bj bj2 hbj hbj2 dep hdepbj hdepbj2
    omega

/-- C1: for every duty set with resolving dependencies and a topological
ranking (acyclicity), topological_sort returns Ok with batches that
partition the duty names and place every dependency in a strictly earlier
batch than its dependent. -/
theorem topological_sort_plan (ds : List Duty)
    (hnodup : (dutyNames ds).Nodup)
    (hres : ∀ d ∈ ds, ∀ dep ∈ d.depends_on, dep ∈ dutyNames ds)
    (rank : String → Nat)
    (hrank : ∀ d ∈ ds, ∀ dep ∈ d.depends_on, rank dep < rank d.name) :
    ∃ batches, (DependencyGraph.new ds).topological_sort = .ok batches ∧
      (∀ n, List.count n batches.flatten = if n ∈ dutyNames ds then 1 else 0) ∧
      (∀ d ∈ ds, ∀ dep ∈ d.depends_on,
        ∀ (i j : Nat) (bi bj : List String), batches[i]? = some bi →
          batches[j]? = some bj → d.name ∈ bi → dep ∈ bj → j < i) :=
  topological_sort_plan_core ds hnodup hres rank hrank

/-- Witness for C1 at scenario S1. -/
theorem topological_sort_plan_witness :
    ∃ batches, (DependencyGraph.new s1Duties).topological_sort = .ok batches ∧
      (∀ n, List.count n batches.flatten = if n ∈ dutyNames s1Duties then 1 else 0) ∧
      (∀ d ∈ s1Duties, ∀ dep ∈ d.depends_on,
        ∀ (i j : Nat) (bi bj : List String), batches[i]? = some bi →
          batches[j]? = some bj → d.name ∈ bi → dep ∈ bj → j < i) :=
  topological_sort_plan s1Duties (by decide) (by decide) rankS1 (by decide)

/-- Along the dependency relation, membership in the batches descends to
strictly earlier batch indices. -/
theorem processed_descends (run : List (List String)) (ds : List Duty)
    (hord : ∀ (i : Nat) (bi : List String), run[i]? = some bi →
      ∀ x ∈ bi, ∀ dep ∈ depsOf ds x, ∃ (j : Nat) (bj : List String), j < i ∧
        run[j]? = some bj ∧ dep ∈ bj) :
    ∀ (a b : String), Relation.TransGen (fun u v => v ∈ depsOf ds u) a b →
    ∀ (i : Nat) (bi : List String), run[i]? = some bi → a ∈ bi →
    ∃ (j : Nat) (bj : List String), j < i ∧ run[j]? = some bj ∧ b ∈ bj := by
  intro a b h
  induction h with
  | single hstep =>
    intro i bi hbi habi
    exact hord i bi hbi a habi _ hstep
  | tail hab hbc ih =>
    intro i bi hbi habi
    obtain ⟨j, bj, hji, hbj, hbbj⟩ := ih i bi hbi habi
    obtain ⟨k, bk, hkj, hbk, hcbk⟩ := hord j bj hbj _ hbbj _ hbc
    exact ⟨k, bk, by omega, hbk, hcbk⟩

/-- C2: when every dep resolves but the dependency relation has a cycle
through a duty name, topological_sort fails with the error whose message
starts with Circular. -/
theorem topological_sort_cycle_error (ds : List Duty)
    (hnodup : (dutyNames ds).Nodup)
    (hres : ∀ d ∈ ds, ∀ dep ∈ d.depends_on, dep ∈ dutyNames ds)
    (hcyc : ∃ n ∈ dutyNames ds, Relation.TransGen (fun u v => v ∈ depsOf ds u) n n) :
    ∃ rest, (DependencyGraph.new ds).topological_sort = .error ("Circular" ++ rest) := by
  obtain ⟨run, hsort, hnd, hsub, hord, _⟩ := topological_sort_run ds hnodup hres
  obtain ⟨n, hn, hreach⟩ := hcyc
  have hno : ∀ i : Nat, ∀ bi, run[i]? = some bi → n ∉ bi := by
    intro i
    induction i using Nat.strong_induction_on with
    | _ i ihs =>
      intro bi hbi hnbi
      obtain ⟨j, bj, hj, hbj, hnbj⟩ := processed_descends run ds hord n n hreach i bi hbi hnbi
      exact ihs j hj bj hbj hnbj
  have hnon : n ∉ run.flatten := by
    intro hmem
    rw [List.mem_flatten] at hmem
    obtain ⟨bi, hbimem, hnbi⟩ := hmem
    obtain ⟨i, hi⟩ := List.mem_iff_getElem?.mp hbimem
    exact hno i bi hi hnbi
  have hlt : run.flatten.length < (dutyNames ds).length := by
    have hsubset : ∀ x ∈ run.flatten, x ∈ (dutyNames ds).erase n := by
      intro x hx
      have hxn := hsub x hx
      have hne : x ≠ n := fun hc => hnon (hc ▸ hx)
      exact (List.mem_erase_of_ne hne).mpr hxn
    have hle : run.flatten.length ≤ ((dutyNames ds).erase n).length :=
      (List.Nodup.subperm hnd hsubset).length_le
    have he : ((dutyNames ds).erase n).length = (dutyNames ds).length - 1 :=
      List.length_erase_of_mem hn
    have hpos : 0 < (dutyNames ds).length := List.length_pos_of_mem hn
    omega
  have hcnt : (run.map (fun b => b.length)).sum ≠ ds.length := by
    rw [← List.length_flatten]
    have hnl : (dutyNames ds).length = ds.length := List.length_map _ _
    omega
  rw [if_neg hcnt] at hsort
  refine ⟨" dependency detected in duty graph", ?_⟩
  rw [hsort]
  rfl

/-- Witness for C2 at scenario S2 (the two-cycle a, b). -/
theorem topological_sort_cycle_error_witness :
    ("a" ∈ dutyNames s2Duties ∧
      Relation.TransGen (fun u v => v ∈ depsOf s2Duties u) "a" "a") ∧
    ∃ rest, (DependencyGraph.new s2Duties).topological_sort = .error ("Circular" ++ rest) :=
  ⟨⟨by decide, Relation.TransGen.head
      (by decide : "b" ∈ depsOf s2Duties "a")
      (Relation.TransGen.single (by decide : "a" ∈ depsOf s2Duties "b"))⟩,
   topological_sort_cycle_error s2Duties (by decide) (by decide)
     ⟨"a", by decide, Relation.TransGen.head
       (by decide : "b" ∈ depsOf s2Duties "a")
       (Relation.TransGen.single (by decide : "a" ∈ depsOf s2Duties "b"))⟩⟩

theorem addDeps_error (nodes : List String) (node : String) :
    ∀ (deps : List String) (deg : String → Nat) (rev : String → List String),
    (∃ dep ∈ deps, nodes.contains dep = false) →
    ∃ msg, addDeps nodes node deps deg rev = .error msg := by
  intro deps
  induction deps with
  | nil =>
    rintro deg rev ⟨dep, hmem, _⟩
    cases hmem
  | cons dep rest ih =>
    rintro deg rev ⟨d2, hd2, hc⟩
    cases hcc : nodes.contains dep with
    | false =>
      refine ⟨"Duty " ++ node ++ " depends on " ++ dep ++ " which does not exist", ?_⟩
      simp only [addDeps, hcc]
      rfl
    | true =>
      have hrest : ∃ d3 ∈ rest, nodes.contains d3 = false := by
        rcases List.mem_cons.mp hd2 with heq | hmem
        · subst heq; rw [hcc] at hc; cases hc
        · exact ⟨d2, hmem, hc⟩
      obtain ⟨msg, hmsg⟩ := ih (fupd deg node (deg node + 1))
        (fupd rev dep (rev dep ++ [node])) hrest
      refine ⟨msg, ?_⟩
      simp only [addDeps, hcc]
      simpa using hmsg

theorem addEdges_error (nodes : List String) :
    ∀ (es : List (String × List String)) (deg : String → Nat) (rev : String → List String),
    (∃ e ∈ es, ∃ dep ∈ e.2, nodes.contains dep = false) →
    ∃ msg, addEdges nodes es deg rev = .error msg := by
  intro es
  induction es with
  | nil =>
    rintro deg rev ⟨e, hmem, _⟩
    cases hmem
  | cons e rest ih =>
    rintro deg rev ⟨e2, he2, hbad2⟩
    obtain ⟨node, deps⟩ := e
    by_cases hbad : ∃ dep ∈ deps, nodes.contains dep = false
    · obtain ⟨msg, hmsg⟩ := addDeps_error nodes node deps deg rev hbad
      refine ⟨msg, ?_⟩
      simp only [addEdges, hmsg]
    · have hok : ∀ dep ∈ deps, nodes.contains dep = true := by
        intro dep hdep
        cases hcc : nodes.contains dep with
        | false => exact absurd ⟨dep, hdep, hcc⟩ hbad
        | true => rfl
      have hrest : ∃ e3 ∈ rest, ∃ dep ∈ e3.2, nodes.contains dep = false := by
        rcases List.mem_cons.mp he2 with heq | hmem
        · exfalso
          obtain ⟨dep, hdep, hc⟩ := hbad2
          rw [heq] at hdep
          exact hbad ⟨dep, hdep, hc⟩
        · exact ⟨e2, hmem, hbad2⟩
      obtain ⟨msg, hmsg⟩ := ih (fun x => if x = node then deg x + deps.length else deg x)
        (fun x => rev x ++ List.replicate (deps.count x) node) hrest
      refine ⟨msg, ?_⟩
      simp only [addEdges]
      rw [addDeps_ok nodes node deps deg rev hok]
      simpa using hmsg

/-- C3: when some duty references a dependency name not present in the
set, topological_sort fails with an error instead of returning a plan. -/
theorem topological_sort_missing_dep (ds : List Duty)
    (hnodup : (dutyNames ds).Nodup)
    (hbad : ∃ d ∈ ds, ∃ dep ∈ d.depends_on, dep ∉ dutyNames ds) :
    ∃ msg, (DependencyGraph.new ds).topological_sort = .error msg := by
  have hnew := new_eq ds hnodup
  have hd : (DependencyGraph.new ds).duties = ds.map (fun d => (d.name, d)) := by
    rw [hnew]
  have he : (DependencyGraph.new ds).edges = ds.map (fun d => (d.name, d.depends_on)) := by
    rw [hnew]
  have hnodes : (ds.map (fun d => (d.name, d))).map Prod.fst = dutyNames ds := by
    rw [List.map_map]
    rfl
  obtain ⟨d, hdmem, dep, hdep, hdepn⟩ := hbad
  have hbad2 : ∃ e ∈ ds.map (fun d => (d.name, d.depends_on)), ∃ dep2 ∈ e.2,
      (dutyNames ds).contains dep2 = false := by
    refine ⟨(d.name, d.depends_on), List.mem_map_of_mem _ hdmem, dep, hdep, ?_⟩
    cases hcc : (dutyNames ds).contains dep with
    | false => rfl
    | true => exact absurd ((contains_iff_mem_str _ _).mp hcc) hdepn
  obtain ⟨msg, hmsg⟩ := addEdges_error (dutyNames ds)
    (ds.map (fun d => (d.name, d.depends_on))) (fun _ => 0) (fun _ => []) hbad2
  refine ⟨msg, ?_⟩
  rw [DependencyGraph.topological_sort, hd, he, hnodes, hmsg]

/-- Witness for C3 at a duty referencing the missing name zz. -/
theorem topological_sort_missing_dep_witness :
    (∃ d ∈ s3Duties, ∃ dep ∈ d.depends_on, dep ∉ dutyNames s3Duties) ∧
    ∃ msg, (DependencyGraph.new s3Duties).topological_sort = .error msg :=
  ⟨by decide, topological_sort_missing_dep s3Duties (by decide) (by decide)⟩

theorem alGet_duties_of_mem (ds : List Duty) (x : String) (hx : x ∈ dutyNames ds) :
    ∃ du, alGet (ds.map (fun d => (d.name, d))) x = some du ∧ du.name = x := by
  induction ds with
  | nil => cases hx
  | cons d rest ih =>
    by_cases hdx : d.name = x
    · exact ⟨d, by simp [alGet, hdx], hdx⟩
    · have hxr : x ∈ dutyNames rest := by
        rcases List.mem_cons.mp hx with heq | hmem
        · exact absurd heq.symm hdx
        · exact hmem
      obtain ⟨du, hget, hname⟩ := ih hxr
      exact ⟨du, by simp [alGet, hdx, hget], hname⟩

/-- C8: for a valid acyclic duty set, the batch sequence iterated by
destroy_duties_dag is exactly the reverse of the execution plan, so for
every dependency edge the dependent is destroyed in a strictly earlier
batch than its dependency. -/
theorem destroy_reverses_plan (ds : List Duty)
    (hnodup : (dutyNames ds).Nodup)
    (hres : ∀ d ∈ ds, ∀ dep ∈ d.depends_on, dep ∈ dutyNames ds)
    (rank : String → Nat)
    (hrank : ∀ d ∈ ds, ∀ dep ∈ d.depends_on, rank dep < rank d.name) :
    ∃ plan, (DependencyGraph.new ds).get_execution_plan = .ok plan ∧
      destroy_batches ds = .ok plan.reverse ∧
      (∀ d ∈ ds, ∀ dep ∈ d.depends_on,
        ∃ (i j : Nat) (bi bj : List Duty), i < j ∧
          plan.reverse[i]? = some bi ∧ plan.reverse[j]? = some bj ∧
          (∃ du ∈ bi, du.name = d.name) ∧ (∃ du2 ∈ bj, du2.name = dep)) := by
  obtain ⟨batches, hsort, hpart, hord⟩ := topological_sort_plan_core ds hnodup hres rank hrank
  have hplan : (DependencyGraph.new ds).get_execution_plan =
      .ok (batches.map (fun batch =>
        batch.filterMap (fun n => alGet (DependencyGraph.new ds).duties n))) := by
    rw [DependencyGraph.get_execution_plan, hsort]
  have hdestroy : destroy_batches ds = .ok ((batches.map (fun batch =>
      batch.filterMap (fun n => alGet (DependencyGraph.new ds).duties n))).reverse) := by
    rw [destroy_batches, hplan]
  refine ⟨_, hplan, hdestroy, ?_⟩
  intro d hdmem dep hdep
  have hduties : (DependencyGraph.new ds).duties = ds.map (fun d => (d.name, d)) := by
    rw [new_eq ds hnodup]
  -- the name of d and the dep both sit in unique batches
  have hmemd : d.name ∈ batches.flatten := by
    have hp := hpart d.name
    have hxn : d.name ∈ dutyNames ds := List.mem_map_of_mem Duty.name hdmem
    rw [if_pos hxn] at hp
    exact List.count_pos_iff.mp (by omega)
  have hdepnames : dep ∈ dutyNames ds := hres d hdmem dep hdep
  have hmemdep : dep ∈ batches.flatten := by
    have hp := hpart dep
    rw [if_pos hdepnames] at hp
    exact List.count_pos_iff.mp (by omega)
  rw [List.mem_flatten] at hmemd hmemdep
  obtain ⟨bi, hbimem, hdbi⟩ := hmemd
  obtain ⟨bj, hbjmem, hdepbj⟩ := hmemdep
  obtain ⟨i, hi⟩ := List.mem_iff_getElem?.mp hbimem
  obtain ⟨j, hj⟩ := List.mem_iff_getElem?.mp hbjmem
  have hji : j < i := hord d hdmem dep hdep i j bi bj hi hj hdbi hdepbj
  have hilen : i < batches.length := (List.getElem?_eq_some_iff.mp hi).1
  have hjlen : j < batches.length := (List.getElem?_eq_some_iff.mp hj).1
  set f : List String → List Duty :=
    fun batch => batch.filterMap (fun n => alGet (DependencyGraph.new ds).duties n) with hf
  have hlenmap : (batches.map f).length = batches.length := List.length_map _ _
  have hrevlen : (batches.map f).reverse.length = batches.length := by
    rw [List.length_reverse, hlenmap]
  refine ⟨batches.length - 1 - i, batches.length - 1 - j, f bi, f bj, by omega, ?_, ?_, ?_, ?_⟩
  · rw [List.getElem?_reverse (by omega)]
    rw [hlenmap]
    have hix : batches.length - 1 - (batches.length - 1 - i) = i := by omega
    rw [hix, List.getElem?_map, hi]
    rfl
  · rw [List.getElem?_reverse (by omega)]
    rw [hlenmap]
    have hjx : batches.length - 1 - (batches.length - 1 - j) = j := by omega
    rw [hjx, List.getElem?_map, hj]
    rfl
  · have hxn : d.name ∈ dutyNames ds := List.mem_map_of_mem Duty.name hdmem
    obtain ⟨du, hget, hname⟩ := alGet_duties_of_mem ds d.name hxn
    refine ⟨du, ?_, hname⟩
    rw [hf]
    rw [List.mem_filterMap]
    exact ⟨d.name, hdbi, by rw [hduties]; exact hget⟩
  · obtain ⟨du2, hget2, hname2⟩ := alGet_duties_of_mem ds dep hdepnames
    refine ⟨du2, ?_, hname2⟩
    rw [hf]
    rw [List.mem_filterMap]
    exact ⟨dep, hdepbj, by rw [hduties]; exact hget2⟩

/-- Witness for C8 at scenario S1. -/
theorem destroy_reverses_plan_witness :
    ∃ plan, (DependencyGraph.new s1Duties).get_execution_plan = .ok plan ∧
      destroy_batches s1Duties = .ok plan.reverse ∧
      (∀ d ∈ s1Duties, ∀ dep ∈ d.depends_on,
        ∃ (i j : Nat) (bi bj : List Duty), i < j ∧
          plan.reverse[i]? = some bi ∧ plan.reverse[j]? = some bj ∧
          (∃ du ∈ bi, du.name = d.name) ∧ (∃ du2 ∈ bj, du2.name = dep)) :=
  destroy_reverses_plan s1Duties (by decide) (by decide) rankS1 (by decide)
